import Mathlib

/-!
Verification of the AT-Protocol record-identity subsystem of nbhd.city:
TID record-key generation and decoding (`api/atproto/tid.py`), CID
generation and validation (`api/atproto/cid.py`), and the frontmatter
schema-inference engine (`lambda/template_analyzer/analyzer.py`).

The Python sources are embedded shallowly: machine integers are `Nat`
with explicit `% 2^w`, byte strings are `List Nat`, Python strings are
`String`/`List Char`, and fallible functions return `Except String`.
The behaviour of the CPython standard-library routines the code calls
(`base64.b32encode`/`b32decode`, `re.match`, `str.rstrip`, `str.lower`,
`int.to_bytes`/`from_bytes`, `hashlib.sha256`, `datetime.fromisoformat`)
is modelled from CPython's own pure-Python reference implementations,
which the individual doc comments cite.
-/

set_option maxRecDepth 20000

deriving instance DecidableEq for Except

namespace Nbhd

/-- Lexicographic code-point comparison of character lists; Python's `<` on
strings compares exactly like this. -/
def pyStrLt : List Char → List Char → Bool
  | [], [] => false
  | [], _ :: _ => true
  | _ :: _, [] => false
  | x :: xs, y :: ys => if x < y then true else if y < x then false else pyStrLt xs ys

/-- Big-endian interpretation of a byte list as a natural number, modelling
Python's `int.from_bytes(b, byteorder="big")`. -/
def beBytesToNat (bs : List Nat) : Nat := bs.foldl (fun a b => 256 * a + b) 0

/-- The 8-byte big-endian encoding of `n`, modelling Python's
`n.to_bytes(8, byteorder="big")` (which is defined exactly for `n < 2^64`). -/
def toBytes8 (n : Nat) : List Nat :=
  [n / 2 ^ 56 % 256, n / 2 ^ 48 % 256, n / 2 ^ 40 % 256, n / 2 ^ 32 % 256,
   n / 2 ^ 24 % 256, n / 2 ^ 16 % 256, n / 2 ^ 8 % 256, n % 256]

/-- The 5-byte big-endian encoding of a 40-bit accumulator, modelling
`acc.to_bytes(5, "big")` inside CPython's `base64` module. -/
def toBytes5 (n : Nat) : List Nat :=
  [n / 2 ^ 32 % 256, n / 2 ^ 24 % 256, n / 2 ^ 16 % 256, n / 2 ^ 8 % 256, n % 256]

/-- The RFC 4648 base-32 alphabet used by `base64.b32encode`. -/
def b32chars : List Char :=
  ['A', 'B', 'C', 'D', 'E', 'F', 'G', 'H', 'I', 'J', 'K', 'L', 'M',
   'N', 'O', 'P', 'Q', 'R', 'S', 'T', 'U', 'V', 'W', 'X', 'Y', 'Z',
   '2', '3', '4', '5', '6', '7']

/-- Character of the base-32 alphabet at index `n`; every call site masks the
index to five bits, so the default is never taken. -/
def b32char (n : Nat) : Char := b32chars.getD n 'A'

/-- Reverse lookup into the base-32 alphabet, modelling the `_b32rev`
dictionary lookup in CPython's `base64._b32decode` (a missing key raises
`binascii.Error('Non-base32 digit found')`). -/
def b32rev (c : Char) : Option Nat := b32chars.indexOf? c

/-- ASCII lower-casing of one character; on the ASCII-only strings this code
manipulates it agrees with Python's `str.lower()`. -/
def lowerChar (c : Char) : Char :=
  if 'A' ≤ c ∧ c ≤ 'Z' then Char.ofNat (c.toNat + 32) else c

/-- ASCII upper-casing of one character; on the ASCII-only strings this code
manipulates it agrees with Python's `str.upper()`. -/
def upperChar (c : Char) : Char :=
  if 'a' ≤ c ∧ c ≤ 'z' then Char.ofNat (c.toNat - 32) else c

/-- Remove every trailing `=` character, modelling `str.rstrip("=")`. -/
def rstripEq (cs : List Char) : List Char :=
  (cs.reverse.dropWhile (fun c => c = '=')).reverse

/-- Encode one chunk of one to five input bytes into eight base-32 characters.
This models one step of CPython's `base64.b32encode`: the chunk is zero-padded
to five bytes, read as a 40-bit big-endian accumulator, cut into eight 5-bit
groups indexed into the alphabet, and the trailing characters that would
encode only padding are overwritten with `=` (6, 4, 3 or 1 of them when the
final chunk has 1, 2, 3 or 4 real bytes). -/
def encodeChunk (bs : List Nat) : List Char :=
  let padded := bs ++ List.replicate (5 - bs.length) 0
  let acc := beBytesToNat padded
  let cs := (List.range 8).map (fun i => b32char ((acc >>> (35 - 5 * i)) &&& 31))
  let pad := if bs.length = 1 then 6 else if bs.length = 2 then 4
    else if bs.length = 3 then 3 else if bs.length = 4 then 1 else 0
  cs.take (8 - pad) ++ List.replicate pad '='

/-- RFC 4648 base-32 encoding of a byte list (uppercase, `=`-padded),
modelling `base64.b32encode`: the input is consumed in 5-byte chunks, the
final chunk holding one to five bytes. (Structural recursion, so that
concrete encodings reduce inside the kernel.) -/
def b32encodePy : List Nat → List Char
  | [] => []
  | b0 :: b1 :: b2 :: b3 :: b4 :: b5 :: rest =>
      encodeChunk [b0, b1, b2, b3, b4] ++ b32encodePy (b5 :: rest)
  | bs => encodeChunk bs

/-- Decode one quantum of up to eight base-32 characters into its bit
accumulator, modelling the inner loop `acc = (acc << 5) + b32rev[c]` of
CPython's `base64._b32decode`. -/
def decodeQuantum (q : List Char) : Option Nat :=
  q.foldlM (fun acc c => (b32rev c).map (fun v => 32 * acc + v)) 0

/-- Decode the `=`-stripped payload in 8-character quanta, modelling the main
loop of CPython's `base64._b32decode`: every quantum (the final one may be
short) contributes the five bytes `acc.to_bytes(5, "big")`, and the
accumulator of the final quantum is kept for the padding fix-up. -/
def decodeQuanta : List Char → Option (List (List Nat) × Nat)
  | [] => some ([], 0)
  | c0 :: c1 :: c2 :: c3 :: c4 :: c5 :: c6 :: c7 :: c8 :: rest =>
      match decodeQuantum [c0, c1, c2, c3, c4, c5, c6, c7],
            decodeQuanta (c8 :: rest) with
      | some acc, some (blocks, lastAcc) => some (toBytes5 acc :: blocks, lastAcc)
      | _, _ => none
  | q =>
      match decodeQuantum q with
      | some acc => some ([toBytes5 acc], acc)
      | _ => none

/-- Model of CPython's `base64.b32decode`: the length must be a multiple of
eight; trailing `=` padding is stripped and counted; the payload is decoded
in 8-character quanta (any character outside the alphabet, including an
interior `=`, raises); the number of padding characters must be 0, 1, 3, 4
or 6; and when there was padding the final five bytes are replaced by the
first `(43 - 5*padchars) / 8` bytes of the final accumulator shifted left by
`5*padchars` bits. CPython checks the padding-count condition after the
quanta loop; both orders yield an error on exactly the same inputs. -/
def b32decodePy (cs : List Char) : Except String (List Nat) :=
  if cs.length % 8 ≠ 0 then .error "Incorrect padding"
  else
    let s := rstripEq cs
    let padchars := cs.length - s.length
    match decodeQuanta s with
    | none => .error "Non-base32 digit found"
    | some (blocks, lastAcc) =>
        if ¬ (padchars = 0 ∨ padchars = 1 ∨ padchars = 3 ∨ padchars = 4 ∨ padchars = 6) then
          .error "Incorrect padding"
        else if padchars ≠ 0 ∧ ¬ blocks.isEmpty then
          .ok (blocks.dropLast.flatten ++
               (toBytes5 (lastAcc <<< (5 * padchars))).take ((43 - 5 * padchars) / 8))
        else .ok blocks.flatten

/-- Pure core of `generate_rkey` from `api/atproto/tid.py`, with the two
external reads of the original (the wall clock and the PRNG) passed in as
the arguments `timestamp_us` and `random_bits`: pack
`(timestamp_us << 10) | random_bits`, render as 8 big-endian bytes,
base-32 encode, strip the `=` padding, lower-case. -/
def generate_rkey (timestamp_us random_bits : Nat) : String :=
  let tid_int := (timestamp_us <<< 10) ||| random_bits
  let tid_bytes := toBytes8 tid_int
  let b32_with_padding := b32encodePy tid_bytes
  String.mk ((rstripEq b32_with_padding).map lowerChar)

/-- Characters matched by the regex character class `[a-z2-7]`, compared by
code point (`a``z` is 97–122, `2``7` is 50–55). -/
def isB32Lower (c : Char) : Bool :=
  (97 ≤ c.toNat && c.toNat ≤ 122) || (50 ≤ c.toNat && c.toNat ≤ 55)

/-- In Python's default regex mode, `$` matches at the end of the string or
just before a newline that ends the string (Python `re` documentation); this
predicate holds of the unconsumed remainder at exactly those positions. -/
def pyDollarAccepts (rest : List Char) : Bool := rest.isEmpty || rest = ['\n']

/-- Truth value of `re.match(r"^[a-z2-7]{13}$", s)` under Python semantics:
thirteen characters of the class are consumed from the start of the string
and `$` must succeed on the remainder. -/
def pyMatchTid13 (cs : List Char) : Bool :=
  (cs.take 13).length = 13 && (cs.take 13).all isB32Lower && pyDollarAccepts (cs.drop 13)

/-- Model of `validate_rkey` from `api/atproto/tid.py`: true exactly when the
regex `^[a-z2-7]{13}$` matches (the `isinstance` guard is subsumed by the
type). -/
def validate_rkey (rkey : String) : Bool := pyMatchTid13 rkey.data

/-- Model of `_base32_to_int` from `api/atproto/tid.py`: upper-case, append
the fixed three padding characters, decode with `base64.b32decode`, and read
the bytes big-endian; a decoding failure is re-raised as `ValueError`. -/
def base32_to_int (rkey : String) : Except String Nat :=
  match b32decodePy ((rkey.data.map upperChar) ++ ['=', '=', '=']) with
  | .error e => .error ("Failed to decode base32 TID: " ++ e)
  | .ok tid_bytes => .ok (beBytesToNat tid_bytes)

/-- Model of `extract_tid_timestamp` from `api/atproto/tid.py`. -/
def extract_tid_timestamp (rkey : String) : Except String Nat :=
  if rkey.data.isEmpty then .error "rkey must be non-empty string"
  else if ¬ pyMatchTid13 rkey.data then .error "Invalid TID format"
  else (base32_to_int rkey).map (fun tid_int => tid_int >>> 10)

/-- Model of `extract_tid_components` from `api/atproto/tid.py`: the decoded
64-bit value split as `(tid_int >> 10, tid_int & 0x3FF)`. -/
def extract_tid_components (rkey : String) : Except String (Nat × Nat) :=
  if rkey.data.isEmpty then .error "rkey must be non-empty string"
  else if ¬ pyMatchTid13 rkey.data then .error "Invalid TID format"
  else (base32_to_int rkey).map (fun tid_int => (tid_int >>> 10, tid_int &&& 0x3FF))

/-! SHA-256, modelled from FIPS 180-4 (the algorithm `hashlib.sha256`
implements), over `Nat` with explicit reduction modulo `2^32`. -/

/-- Reduction modulo the 32-bit word size. -/
def w32 (n : Nat) : Nat := n % 4294967296

/-- Right rotation of a 32-bit word by `k` bits (for `0 < k < 32`). -/
def rotr (k x : Nat) : Nat := x / 2 ^ k + x % 2 ^ k * 2 ^ (32 - k)

/-- Bitwise complement of a 32-bit word. -/
def wnot (x : Nat) : Nat := x ^^^ 4294967295

/-- The `Ch` function of FIPS 180-4. -/
def shaCh (x y z : Nat) : Nat := (x &&& y) ^^^ (wnot x &&& z)

/-- The `Maj` function of FIPS 180-4. -/
def shaMaj (x y z : Nat) : Nat := (x &&& y) ^^^ (x &&& z) ^^^ (y &&& z)

/-- The `Σ₀` function of FIPS 180-4. -/
def bsig0 (x : Nat) : Nat := rotr 2 x ^^^ rotr 13 x ^^^ rotr 22 x

/-- The `Σ₁` function of FIPS 180-4. -/
def bsig1 (x : Nat) : Nat := rotr 6 x ^^^ rotr 11 x ^^^ rotr 25 x

/-- The `σ₀` function of FIPS 180-4. -/
def ssig0 (x : Nat) : Nat := rotr 7 x ^^^ rotr 18 x ^^^ (x >>> 3)

/-- The `σ₁` function of FIPS 180-4. -/
def ssig1 (x : Nat) : Nat := rotr 17 x ^^^ rotr 19 x ^^^ (x >>> 10)

/-- The 64 SHA-256 round constants. -/
def shaK : List Nat :=
  [1116352408, 1899447441, 3049323471, 3921009573, 961987163, 1508970993,
   2453635748, 2870763221, 3624381080, 310598401, 607225278, 1426881987,
   1925078388, 2162078206, 2614888103, 3248222580, 3835390401, 4022224774,
   264347078, 604807628, 770255983, 1249150122, 1555081692, 1996064986,
   2554220882, 2821834349, 2952996808, 3210313671, 3336571891, 3584528711,
   113926993, 338241895, 666307205, 773529912, 1294757372, 1396182291,
   1695183700, 1986661051, 2177026350, 2456956037, 2730485921, 2820302411,
   3259730800, 3345764771, 3516065817, 3600352804, 4094571909, 275423344,
   430227734, 506948616, 659060556, 883997877, 958139571, 1322822218,
   1537002063, 1747873779, 1955562222, 2024104815, 2227730452, 2361852424,
   2428436474, 2756734187, 3204031479, 3329325298]

/-- The SHA-256 working state: eight 32-bit words. -/
structure Hash8 where
  a : Nat
  b : Nat
  c : Nat
  d : Nat
  e : Nat
  f : Nat
  g : Nat
  h : Nat

/-- The SHA-256 initial hash value. -/
def shaH0 : Hash8 :=
  ⟨1779033703, 3144134277, 1013904242, 2773480762,
   1359893119, 2600822924, 528734635, 1541459225⟩

/-- FIPS 180-4 message padding: append `0x80`, then zero bytes until the
length is 56 mod 64, then the bit length as 8 big-endian bytes. -/
def shaPad (m : List Nat) : List Nat :=
  m ++ [0x80] ++ List.replicate ((119 - m.length % 64) % 64) 0
    ++ toBytes8 (8 * m.length % 2 ^ 64)

/-- Split a byte list into 64-byte blocks, with fuel bounding the recursion
depth (callers pass the list length, which is never exhausted since every
step consumes at least one element). -/
def chunks64Go (fuel : Nat) (l : List Nat) : List (List Nat) :=
  match fuel, l with
  | _, [] => []
  | 0, _ => []
  | f + 1, l => l.take 64 :: chunks64Go f (l.drop 64)

/-- Split a byte list into 64-byte blocks. -/
def chunks64 (l : List Nat) : List (List Nat) := chunks64Go l.length l

/-- Split a 64-byte block into 4-byte big-endian words. -/
def toWords : List Nat → List Nat
  | b0 :: b1 :: b2 :: b3 :: rest => beBytesToNat [b0, b1, b2, b3] :: toWords rest
  | _ => []

/-- Extend the sixteen block words by `n` further schedule words
`W[i] = σ₁(W[i-2]) + W[i-7] + σ₀(W[i-15]) + W[i-16] mod 2^32`. -/
def extendWords (ws : List Nat) : Nat → List Nat
  | 0 => ws
  | n + 1 =>
      extendWords
        (ws ++ [w32 (ssig1 (ws.getD (ws.length - 2) 0) + ws.getD (ws.length - 7) 0 +
                     ssig0 (ws.getD (ws.length - 15) 0) + ws.getD (ws.length - 16) 0)]) n

/-- One SHA-256 round. -/
def shaRound (s : Hash8) (kw : Nat × Nat) : Hash8 :=
  let t1 := w32 (s.h + bsig1 s.e + shaCh s.e s.f s.g + kw.1 + kw.2)
  let t2 := w32 (bsig0 s.a + shaMaj s.a s.b s.c)
  ⟨w32 (t1 + t2), s.a, s.b, s.c, w32 (s.d + t1), s.e, s.f, s.g⟩

/-- Compress one 64-byte block into the running hash value. -/
def shaBlock (hs : Hash8) (block : List Nat) : Hash8 :=
  let ws := extendWords (toWords block) 48
  let s := (shaK.zip ws).foldl shaRound hs
  ⟨w32 (hs.a + s.a), w32 (hs.b + s.b), w32 (hs.c + s.c), w32 (hs.d + s.d),
   w32 (hs.e + s.e), w32 (hs.f + s.f), w32 (hs.g + s.g), w32 (hs.h + s.h)⟩

/-- The 4-byte big-endian encoding of a 32-bit word. -/
def wordBytes (x : Nat) : List Nat :=
  [x / 2 ^ 24 % 256, x / 2 ^ 16 % 256, x / 2 ^ 8 % 256, x % 256]

/-- The 32-byte SHA-256 digest of a byte list, modelling
`hashlib.sha256(m).digest()`. -/
def sha256 (m : List Nat) : List Nat :=
  let hs := (chunks64 (shaPad m)).foldl shaBlock shaH0
  wordBytes hs.a ++ wordBytes hs.b ++ wordBytes hs.c ++ wordBytes hs.d ++
  wordBytes hs.e ++ wordBytes hs.f ++ wordBytes hs.g ++ wordBytes hs.h

/-! The CID generator (`api/atproto/cid.py`). Record values are the
structured data the `dag_cbor` library encodes; we model the value space
with `CborVal` (floats are omitted from the model: their IEEE-754 bit
layout is outside this embedding, and no claim mentions them). -/

/-- Structured record values acceptable to the canonical DAG-CBOR encoder:
null, booleans, integers, text strings, byte strings, lists and
string-keyed mappings (in insertion order, as a Python dict iterates). -/
inductive CborVal where
  | null
  | bool (b : Bool)
  | int (n : Int)
  | str (s : String)
  | bytes (bs : List Nat)
  | arr (xs : List CborVal)
  | map (kvs : List (String × CborVal))

/-- UTF-8 encoding of one character. -/
def utf8Char (c : Char) : List Nat :=
  let n := c.toNat
  if n < 0x80 then [n]
  else if n < 0x800 then [0xC0 + n / 64, 0x80 + n % 64]
  else if n < 0x10000 then [0xE0 + n / 4096, 0x80 + n / 64 % 64, 0x80 + n % 64]
  else [0xF0 + n / 262144, 0x80 + n / 4096 % 64, 0x80 + n / 64 % 64, 0x80 + n % 64]

/-- UTF-8 encoding of a string, modelling Python's `s.encode("utf-8")`. -/
def utf8Encode (s : String) : List Nat := s.data.flatMap utf8Char

/-- A CBOR item head: major type and minimal-length argument encoding, as
DAG-CBOR requires (RFC 8949 preferred serialization). -/
def cborHead (major arg : Nat) : List Nat :=
  if arg < 24 then [32 * major + arg]
  else if arg < 256 then [32 * major + 24, arg]
  else if arg < 65536 then [32 * major + 25, arg / 256 % 256, arg % 256]
  else if arg < 4294967296 then (32 * major + 26) :: wordBytes arg
  else (32 * major + 27) :: toBytes8 arg

/-- Byte-wise lexicographic comparison of encoded keys. -/
def lexLeBytes : List Nat → List Nat → Bool
  | [], _ => true
  | _ :: _, [] => false
  | x :: xs, y :: ys => if x < y then true else if y < x then false else lexLeBytes xs ys

/-- The DAG-CBOR canonical map-key order: shorter encoded keys sort first,
equal-length keys sort byte-wise. -/
def keyLE (a b : List Nat) : Bool :=
  if a.length = b.length then lexLeBytes a b else a.length < b.length

mutual

/-- Model of `dag_cbor.encode` on `CborVal`, following the IPLD DAG-CBOR
specification the library implements: definite lengths everywhere, minimal
integer encodings, 64-bit integer range (out-of-range integers raise), and
map entries sorted by the canonical key order. -/
def dagCborEncode : CborVal → Except String (List Nat)
  | .null => .ok [0xF6]
  | .bool false => .ok [0xF4]
  | .bool true => .ok [0xF5]
  | .int n =>
      if 0 ≤ n then
        if n < 2 ^ 64 then .ok (cborHead 0 n.toNat)
        else .error "integer out of range"
      else
        if -(2 ^ 64) ≤ n then .ok (cborHead 1 (-1 - n).toNat)
        else .error "integer out of range"
  | .str s => .ok (cborHead 3 (utf8Encode s).length ++ utf8Encode s)
  | .bytes bs => .ok (cborHead 2 bs.length ++ bs)
  | .arr xs =>
      match encodeItems xs with
      | .error e => .error e
      | .ok es => .ok (cborHead 4 xs.length ++ es.flatten)
  | .map kvs =>
      match encodePairs kvs with
      | .error e => .error e
      | .ok pairs =>
          let sorted := pairs.mergeSort (fun p q => keyLE p.1 q.1)
          .ok (cborHead 5 kvs.length ++
               sorted.flatMap (fun p => cborHead 3 p.1.length ++ p.1 ++ p.2))

/-- Encode the elements of a list value in order. -/
def encodeItems : List CborVal → Except String (List (List Nat))
  | [] => .ok []
  | x :: rest =>
      match dagCborEncode x, encodeItems rest with
      | .ok e, .ok es => .ok (e :: es)
      | .error e, _ => .error e
      | _, .error e => .error e

/-- Encode the entries of a mapping as (UTF-8 key bytes, value bytes) pairs. -/
def encodePairs : List (String × CborVal) → Except String (List (List Nat × List Nat))
  | [] => .ok []
  | (k, v) :: rest =>
      match dagCborEncode v, encodePairs rest with
      | .ok e, .ok es => .ok ((utf8Encode k, e) :: es)
      | .error e, _ => .error e
      | _, .error e => .error e

end

/-- Model of `generate_cid` from `api/atproto/cid.py`: canonical DAG-CBOR
encoding, SHA-256, lowercase unpadded base-32, and the fixed `bafy` tag.
An encoder failure is re-raised as `ValueError` (the base-32 steps cannot
fail, so the second `try` of the source never raises). -/
def generate_cid (record_value : CborVal) : Except String String :=
  match dagCborEncode record_value with
  | .error e => .error ("Failed to encode record as DAG-CBOR: " ++ e)
  | .ok cbor_bytes =>
      let sha256_hash := sha256 cbor_bytes
      let b32_with_padding := b32encodePy sha256_hash
      let b32_lowercase := (rstripEq b32_with_padding).map lowerChar
      .ok (String.mk ('b' :: 'a' :: 'f' :: 'y' :: b32_lowercase))

/-- Truth value of `re.match(r"^bafy[a-z2-7]+$", s)` under Python semantics:
the literal `bafy` from the start, then a maximal nonempty run of class
characters, then `$` must succeed on the remainder (so a single newline may
end the string). -/
def pyMatchCid (cs : List Char) : Bool :=
  match cs with
  | 'b' :: 'a' :: 'f' :: 'y' :: rest =>
      !(rest.takeWhile isB32Lower).isEmpty && pyDollarAccepts (rest.dropWhile isB32Lower)
  | _ => false

/-- Model of `validate_cid` from `api/atproto/cid.py`: the `bafy` tag, the
regex `^bafy[a-z2-7]+$`, and a total length between 56 and 200 characters. -/
def validate_cid (cid : String) : Bool :=
  if ¬ ('b' :: 'a' :: 'f' :: 'y' :: []).isPrefixOf cid.data then false
  else if ¬ pyMatchCid cid.data then false
  else if cid.length < 56 then false
  else if cid.length > 200 then false
  else true

/-! The schema-inference engine (`lambda/template_analyzer/analyzer.py`). -/

/-- Decimal digit check. -/
def isDigit (c : Char) : Bool := '0' ≤ c && c ≤ '9'

/-- Parse a nonempty digit-only character run as a number. This models the
`int(...)` calls of CPython's ISO-format parser on the fixed-width slices it
extracts (Python's `int` additionally tolerates signed or underscored digit
strings, which none of the inputs considered here use). -/
def parseNatDigits (cs : List Char) : Option Nat :=
  if cs.isEmpty then Option.none
  else if cs.all isDigit then some (cs.foldl (fun a c => 10 * a + (c.toNat - 48)) 0)
  else Option.none

/-- Gregorian leap-year test, as in Python's `calendar.isleap`. -/
def isLeapYear (y : Nat) : Bool := y % 4 = 0 && (y % 100 ≠ 0 || y % 400 = 0)

/-- Days in a month, modelling `datetime`'s `_days_in_month`. -/
def daysInMonth (y m : Nat) : Nat :=
  if m = 2 then (if isLeapYear y then 29 else 28)
  else if m = 4 ∨ m = 6 ∨ m = 9 ∨ m = 11 then 30
  else 31

/-- The date part of CPython's ISO-format parser (`_parse_isoformat_date`):
exactly `YYYY-MM-DD` over the first ten characters. -/
def parseIsoDate (cs : List Char) : Option (Nat × Nat × Nat) :=
  match cs with
  | [y1, y2, y3, y4, s1, m1, m2, s2, d1, d2] =>
      if s1 = '-' ∧ s2 = '-' then
        match parseNatDigits [y1, y2, y3, y4], parseNatDigits [m1, m2],
              parseNatDigits [d1, d2] with
        | some y, some m, some d => some (y, m, d)
        | _, _, _ => Option.none
      else Option.none
  | _ => Option.none

/-- The `HH[:MM[:SS[.fff[fff]]]]` parser of CPython's ISO-format support
(`_parse_hh_mm_ss_ff`): two-digit components separated by `:`, an optional
fraction of exactly three or six digits after `.`, microseconds returned. -/
def parseHMSF (cs : List Char) : Option (Nat × Nat × Nat × Nat) :=
  if cs.length < 2 then Option.none
  else
    match parseNatDigits (cs.take 2) with
    | Option.none => Option.none
    | some hh =>
      let r1 := cs.drop 2
      if r1.isEmpty then some (hh, 0, 0, 0)
      else if r1.headD ' ' ≠ ':' then Option.none
      else
        let r2 := r1.drop 1
        if r2.length < 2 then Option.none
        else
          match parseNatDigits (r2.take 2) with
          | Option.none => Option.none
          | some mm =>
            let r3 := r2.drop 2
            if r3.isEmpty then some (hh, mm, 0, 0)
            else if r3.headD ' ' ≠ ':' then Option.none
            else
              let r4 := r3.drop 1
              if r4.length < 2 then Option.none
              else
                match parseNatDigits (r4.take 2) with
                | Option.none => Option.none
                | some ss =>
                  let r5 := r4.drop 2
                  if r5.isEmpty then some (hh, mm, ss, 0)
                  else if r5.headD ' ' ≠ '.' then Option.none
                  else
                    let frac := r5.drop 1
                    if frac.length = 3 then
                      (parseNatDigits frac).map (fun f => (hh, mm, ss, f * 1000))
                    else if frac.length = 6 then
                      (parseNatDigits frac).map (fun f => (hh, mm, ss, f))
                    else Option.none

/-- The time-and-offset part of CPython's ISO-format parser
(`_parse_isoformat_time` plus the `time`/`timezone` range checks): a
`HH[:MM[:SS[.ffffff]]]` time with hour ≤ 23, minute ≤ 59 and second ≤ 59,
optionally followed by a `±HH:MM[:SS[.ffffff]]` offset (length 5, 8 or 15)
whose magnitude must stay strictly below 24 hours. The split point is the
first `-` of the time string, else the first `+`. -/
def parseIsoTime (tstr : List Char) : Bool :=
  if tstr.length < 2 then false
  else
    let tzPos := match tstr.indexOf? '-' with
      | some i => some i
      | Option.none => tstr.indexOf? '+'
    let timestr := match tzPos with
      | some i => tstr.take i
      | Option.none => tstr
    match parseHMSF timestr with
    | Option.none => false
    | some (hh, mm, ss, _) =>
        hh ≤ 23 && mm ≤ 59 && ss ≤ 59 &&
        match tzPos with
        | Option.none => true
        | some i =>
            let tzstr := tstr.drop (i + 1)
            (tzstr.length = 5 || tzstr.length = 8 || tzstr.length = 15) &&
            match parseHMSF tzstr with
            | Option.none => false
            | some (th, tm, ts, tf) =>
                (th * 3600 + tm * 60 + ts) * 1000000 + tf < 86400000000

/-- Model of `datetime.fromisoformat` (the documented pre-3.11 grammar
`YYYY-MM-DD[*HH[:MM[:SS[.fff[fff]]]][±HH:MM[:SS[.ffffff]]]]`), returning
whether parsing succeeds: the first ten characters are the date (validated
against the Gregorian calendar and year range 1–9999), character eleven is
an arbitrary separator, and the rest is the time. -/
def pyFromIsoformat (cs : List Char) : Bool :=
  match parseIsoDate (cs.take 10) with
  | Option.none => false
  | some (y, m, d) =>
      (1 ≤ y && 1 ≤ m && m ≤ 12 && 1 ≤ d && d ≤ daysInMonth y m) &&
      (cs.length = 10 || parseIsoTime (cs.drop 11))

/-- Model of `is_iso_date` from `analyzer.py`: replace every `Z` with
`+00:00`, then test whether `datetime.fromisoformat` succeeds. -/
def is_iso_date (s : String) : Bool :=
  pyFromIsoformat
    (s.data.flatMap (fun c => if c = 'Z' then ['+', '0', '0', ':', '0', '0'] else [c]))

/-- Python values as they appear in parsed frontmatter: `None`, booleans,
integers, floats, strings, lists and string-keyed dicts (in insertion
order). Floats are carried as their rational value, which suffices here:
the analyzer only type-tests floats, never computes with them. -/
inductive PyVal where
  | none
  | bool (b : Bool)
  | int (n : Int)
  | float (q : ℚ)
  | str (s : String)
  | list (xs : List PyVal)
  | dict (kvs : List (String × PyVal))

/-- Identity test against `None` (`v is None`). -/
def PyVal.isNone : PyVal → Bool
  | .none => true
  | _ => false

/-- Model of `isinstance(v, str)`. -/
def PyVal.isStr : PyVal → Bool
  | .str _ => true
  | _ => false

/-- Model of `isinstance(v, list)`. -/
def PyVal.isList : PyVal → Bool
  | .list _ => true
  | _ => false

/-- Model of `isinstance(v, bool)`. -/
def PyVal.isBool : PyVal → Bool
  | .bool _ => true
  | _ => false

/-- Model of `isinstance(v, (int, float))`. Python's `bool` is a subclass of
`int`, so boolean values satisfy this test as well. -/
def PyVal.isNum : PyVal → Bool
  | .bool _ => true
  | .int _ => true
  | .float _ => true
  | _ => false

/-- Model of `isinstance(v, dict)`. -/
def PyVal.isDict : PyVal → Bool
  | .dict _ => true
  | _ => false

/-- Model of `type(v).__name__`. -/
def PyVal.typeName : PyVal → String
  | .none => "NoneType"
  | .bool _ => "bool"
  | .int _ => "int"
  | .float _ => "float"
  | .str _ => "str"
  | .list _ => "list"
  | .dict _ => "dict"

/-- Model of `is_iso_date(v)` applied to a raw value: on a non-string it
raises `AttributeError`, which `is_iso_date` catches and turns into `False`
(the call is short-circuited behind `isinstance(v, str)` anyway). -/
def PyVal.isIso : PyVal → Bool
  | .str s => is_iso_date s
  | _ => false

/-- Model of `map_python_type_to_json` from `analyzer.py`. -/
def map_python_type_to_json (python_type : String) : String :=
  if python_type = "str" then "string"
  else if python_type = "int" then "integer"
  else if python_type = "float" then "number"
  else if python_type = "bool" then "boolean"
  else if python_type = "dict" then "object"
  else if python_type = "list" then "array"
  else "string"

/-- The result dictionary of `infer_field_type`: the JSON-Schema `type`, an
optional `format` entry, and an optional `items` entry (`items = some t`
models `{"items": {"type": t}}`). -/
structure FieldType where
  type : String
  format : Option String := Option.none
  items : Option String := Option.none
deriving DecidableEq

/-- The array branch of `infer_field_type`: `for v in values: if v: return
array-with-items; return array`. The loop runs only when every value is a
(genuine) list, a nonempty list is the truthy case, and the items type is
`type(v[0]).__name__` mapped through the scalar table. -/
def arrayItemSchema : List PyVal → FieldType
  | [] => ⟨"array", Option.none, Option.none⟩
  | .list (x :: _) :: _ => ⟨"array", Option.none, some (map_python_type_to_json x.typeName)⟩
  | _ :: rest => arrayItemSchema rest

/-- Model of `infer_field_type` from `analyzer.py`: drop `None`s, then test
in order for the empty list, all ISO-date strings, all lists, all booleans,
all numbers, all mappings, with `string` as the final fallback. -/
def infer_field_type (values : List PyVal) : FieldType :=
  let values := values.filter (fun v => ¬ v.isNone)
  if values.isEmpty then ⟨"string", Option.none, Option.none⟩
  else if values.all (fun v => v.isStr && v.isIso) then
    ⟨"string", some "date-time", Option.none⟩
  else if values.all PyVal.isList then arrayItemSchema values
  else if values.all PyVal.isBool then ⟨"boolean", Option.none, Option.none⟩
  else if values.all PyVal.isNum then ⟨"number", Option.none, Option.none⟩
  else if values.all PyVal.isDict then ⟨"object", Option.none, Option.none⟩
  else ⟨"string", Option.none, Option.none⟩

/-- Model of `str.title()` on ASCII text: the first character of every run
of letters is upper-cased and the following letters lower-cased. -/
def pyTitleGo : Bool → List Char → List Char
  | _, [] => []
  | prevCased, c :: rest =>
      let isAlpha := ('a' ≤ c && c ≤ 'z') || ('A' ≤ c && c ≤ 'Z')
      (if isAlpha then (if prevCased then lowerChar c else upperChar c) else c)
        :: pyTitleGo isAlpha rest

/-- Model of `field_name.replace("_", " ").replace("-", " ").title()`. -/
def fieldTitle (k : String) : String :=
  ⟨pyTitleGo false (k.data.map (fun c => if c = '_' ∨ c = '-' then ' ' else c))⟩

/-- Model of `key.startswith("_")`. -/
def startsWithUnderscore (k : String) : Bool :=
  match k.data with
  | '_' :: _ => true
  | _ => false

/-- An entry of the `properties` mapping: the result of `infer_field_type`
plus the human-readable `title` added by `infer_schema`. -/
structure PropSchema where
  fieldType : FieldType
  title : String

/-- The inferred JSON schema `{type: "object", properties, required}`, with
`properties` and `required` in first-encountered field order. -/
structure Schema where
  properties : List (String × PropSchema)
  required : List String

/-- Append `v` to the value list of key `k`, adding the key at the end on
first encounter (Python dict insertion-order semantics). -/
def updateAssoc : List (String × List PyVal) → String → PyVal → List (String × List PyVal)
  | [], k, v => [(k, [v])]
  | (k', vs) :: rest, k, v =>
      if k' = k then (k', vs ++ [v]) :: rest
      else (k', vs) :: updateAssoc rest k v

/-- Model of the `all_fields` collection loop of `infer_schema`: for every
sample in order and every key/value pair of the sample in order, keys
starting with `_` are skipped and every other value is appended to its
key's list. -/
def collectFields (samples : List (List (String × PyVal))) : List (String × List PyVal) :=
  samples.foldl
    (fun acc sample =>
      sample.foldl
        (fun acc kv =>
          if startsWithUnderscore kv.1 then acc else updateAssoc acc kv.1 kv.2)
        acc)
    []

/-- Model of `infer_schema` from `analyzer.py`. Python computes
`occurrence_rate` with IEEE-754 double division and compares it against the
literal `0.8`; the exact rational comparison used here agrees with the
double comparison for every sample count below 2·10^15. -/
def infer_schema (frontmatter_samples : List (List (String × PyVal))) : Schema :=
  if frontmatter_samples.isEmpty then ⟨[], []⟩
  else
    let total_samples := frontmatter_samples.length
    let all_fields := collectFields frontmatter_samples
    { properties := all_fields.map (fun kv =>
        (kv.1, ⟨infer_field_type kv.2, fieldTitle kv.1⟩)),
      required := all_fields.filterMap (fun kv =>
        if ((kv.2.filter (fun v => ¬ v.isNone)).length : ℚ) / (total_samples : ℚ)
             > (0.8 : ℚ)
        then some kv.1 else Option.none) }

/-! Claim-side definitions, written from the specification's wording, to be
compared with the source-side definitions above. -/

/-- The claim-side reading of the pattern `^bafy[a-z2-7]+$`: the four tag
characters followed by a nonempty run of class characters reaching the very
end of the string. -/
def cidClaimPattern (s : String) : Bool :=
  match s.data with
  | 'b' :: 'a' :: 'f' :: 'y' :: rest => !rest.isEmpty && rest.all isB32Lower
  | _ => false

/-- First-match association-list lookup: the access pattern of a Python dict
whose keys are unique. -/
def lookupKey {α : Type} : List (String × α) → String → Option α
  | [], _ => Option.none
  | (k', v) :: rest, k => if k' = k then some v else lookupKey rest k

/-- Does field `k` appear in the sample with a non-null value? -/
def presentNonNull (k : String) (sample : List (String × PyVal)) : Bool :=
  match lookupKey sample k with
  | some v => ¬ v.isNone
  | Option.none => false

/-- The number of samples in which field `k` appears with a non-null value:
the occurrence count named by the claim about `required`. -/
def countNonNull (k : String) (samples : List (List (String × PyVal))) : Nat :=
  (samples.filter (presentNonNull k)).length

/-- All values paired with key `k` inside one sample, in order (proof
infrastructure for the `all_fields` fold). -/
def sampleVals (k : String) (sample : List (String × PyVal)) : List PyVal :=
  (sample.filter (fun kv => kv.1 = k)).map (fun kv => kv.2)

/-- All values collected for key `k` across the samples, in order. -/
def allVals (k : String) (samples : List (List (String × PyVal))) : List PyVal :=
  samples.flatMap (sampleVals k)

/-- Append new values to an optional previously collected list: `none` stays
`none` only when nothing is appended (proof infrastructure for the
`all_fields` fold). -/
def combineVals (o : Option (List PyVal)) (l : List PyVal) : Option (List PyVal) :=
  match o with
  | some vs => some (vs ++ l)
  | Option.none => if l.isEmpty then Option.none else some l

/-- The claim-side statement of `infer_field_type`'s fixed priority: empty
non-null subset gives `string`; all ISO-8601 date strings give
`string`/`date-time`; all lists give `array`, the items type read from the
first element of the first non-empty list through the scalar table and
omitted when every list is empty; all booleans give `boolean`; all numbers
give `number`; all mappings give `object`; anything else gives `string`. -/
def inferFieldTypeSpec (values : List PyVal) : FieldType :=
  let nonNull := values.filter (fun v => ¬ v.isNone)
  if nonNull.isEmpty then ⟨"string", Option.none, Option.none⟩
  else if nonNull.all (fun v => v.isStr && v.isIso) then
    ⟨"string", some "date-time", Option.none⟩
  else if nonNull.all PyVal.isList then
    match nonNull.find? (fun v => match v with | .list (_ :: _) => true | _ => false) with
    | some (.list (x :: _)) => ⟨"array", Option.none, some (map_python_type_to_json x.typeName)⟩
    | _ => ⟨"array", Option.none, Option.none⟩
  else if nonNull.all PyVal.isBool then ⟨"boolean", Option.none, Option.none⟩
  else if nonNull.all PyVal.isNum then ⟨"number", Option.none, Option.none⟩
  else if nonNull.all PyVal.isDict then ⟨"object", Option.none, Option.none⟩
  else ⟨"string", Option.none, Option.none⟩

/-! Lemmas about the base-32 alphabet. -/

/-- Every character the encoder table can produce lies in the alphabet. -/
theorem b32char_mem (n : Nat) : b32char n ∈ b32chars := by
  by_cases h : n < 32
  · interval_cases n <;> decide
  · have hlen : b32chars.length ≤ n := by
      simp only [b32chars]
      simp only [List.length_cons, List.length_nil]
      omega
    simp only [b32char, List.getD_eq_default _ _ hlen]
    decide

/-- No alphabet character is the padding character. -/
theorem b32char_ne_pad (n : Nat) : b32char n ≠ '=' := by
  have hall : ∀ c ∈ b32chars, c ≠ '=' := by decide
  exact hall _ (b32char_mem n)

/-- Lower-casing an alphabet character lands in the regex class `[a-z2-7]`. -/
theorem isB32Lower_lowerChar_b32char (n : Nat) : isB32Lower (lowerChar (b32char n)) = true := by
  have hall : ∀ c ∈ b32chars, isB32Lower (lowerChar c) = true := by decide
  exact hall _ (b32char_mem n)

/-- Upper-casing undoes lower-casing on alphabet characters. -/
theorem upperChar_lowerChar_b32char (n : Nat) :
    upperChar (lowerChar (b32char n)) = b32char n := by
  have hall : ∀ c ∈ b32chars, upperChar (lowerChar c) = c := by decide
  exact hall _ (b32char_mem n)

/-- Reverse lookup of an alphabet character returns its index. -/
theorem b32rev_b32char (n : Nat) (h : n < 32) : b32rev (b32char n) = some n := by
  interval_cases n <;> decide

/-- Reverse lookup after a five-bit mask, in the exact shape the encoder
produces. -/
theorem b32rev_b32char_and (x : Nat) : b32rev (b32char (x &&& 31)) = some (x &&& 31) :=
  b32rev_b32char _ (Nat.lt_succ_of_le Nat.and_le_right)

/-- C1: the claim states that rkeys generated at strictly increasing
wall-clock times (with a ≥ 1 ms gap) are in non-decreasing lexicographic
order. The code contradicts it — and thereby its own stated requirement
`Ensure chronological sorting (newer records sort later)` and its test
`test_chronological_sorting_with_large_time_gaps` — because the lower-cased
RFC 4648 alphabet is not order-preserving: digit characters (values 26–31)
sort before letters (values 0–25) in code-point order. At the timestamps
`t1 = 3258·2^39 − 500 μs` and `t2 = t1 + 1000 μs` (1 ms apart, early
October 2026) with zero random bits, the generated strings strictly
decrease. -/
theorem C1_lexical_order_violated :
    1791104441646604 < 1791104441647604 ∧
    generate_rkey 1791104441646604 0 = "dfz777777ayaa" ∧
    generate_rkey 1791104441647604 0 = "df2aaaaaa7iaa" ∧
    pyStrLt (generate_rkey 1791104441647604 0).data
      (generate_rkey 1791104441646604 0).data = true := by
  exact ⟨by norm_num, by decide, by decide, by decide⟩

/-- C6: the claim states that `validate_cid` accepts only strings whose
every character after `bafy` lies in `[a-z2-7]`. Because `re.match` with a
`$` anchor also matches just before a trailing newline, the code accepts a
57-character string ending in a newline, contradicting the claim (and the
function's own docstring `Must contain only base32 characters`). -/
theorem C6_validate_cid_accepts_trailing_newline :
    validate_cid ⟨'b' :: 'a' :: 'f' :: 'y' :: (List.replicate 52 'a' ++ ['\n'])⟩ = true ∧
    isB32Lower '\n' = false ∧
    '\n' ∈ ('b' :: 'a' :: 'f' :: 'y' :: (List.replicate 52 'a' ++ ['\n'])).drop 4 := by
  exact ⟨by decide, by decide, by decide⟩

/-- C8: the claim states that `validate_rkey` accepts exactly the strings of
thirteen `[a-z2-7]` characters. Because `re.match` with a `$` anchor also
matches just before a trailing newline, the code accepts a 14-character
string, contradicting the claim (and the spec's `checks exact length 13`). -/
theorem C8_validate_rkey_accepts_trailing_newline :
    validate_rkey ⟨List.replicate 13 'a' ++ ['\n']⟩ = true ∧
    (String.mk (List.replicate 13 'a' ++ ['\n'])).length = 14 := by
  exact ⟨by decide, by decide⟩

theorem and31 (x : Nat) : x &&& 31 = x % 32 := by
  have := Nat.and_pow_two_sub_one_eq_mod x 5
  norm_num at this
  exact this

theorem and1023 (x : Nat) : x &&& 1023 = x % 1024 := by
  have := Nat.and_pow_two_sub_one_eq_mod x 10
  norm_num at this
  exact this

theorem dropWhile_pad_append (k : Nat) (r : List Char) :
    (List.replicate k '=' ++ r).dropWhile (fun c => c = '=') =
      r.dropWhile (fun c => c = '=') := by
  induction k with
  | zero => simp
  | succ n ih => simpa [List.replicate_succ] using ih

theorem rstripEq_append_pad (l : List Char) (k : Nat) :
    rstripEq (l ++ List.replicate k '=') = rstripEq l := by
  simp [rstripEq, List.reverse_append, dropWhile_pad_append]

theorem rstripEq_of_last_ne (l : List Char) (c : Char) (h : l.getLast? = some c)
    (hne : c ≠ '=') : rstripEq l = l := by
  have hrev : l.reverse.head? = some c := by rw [List.head?_reverse]; exact h
  cases hl : l.reverse with
  | nil => rw [hl] at hrev; simp at hrev
  | cons x xs =>
      rw [hl] at hrev
      have hx : x = c := by simpa using hrev
      have hl2 : l = (x :: xs).reverse := by rw [← hl, List.reverse_reverse]
      rw [hl2]
      simp [rstripEq, List.dropWhile_cons, hx, hne]

theorem b32encode8_eq (N : Nat) :
    b32encodePy (toBytes8 N) =
      [b32char (N / 2 ^ 59 % 32), b32char (N / 2 ^ 54 % 32), b32char (N / 2 ^ 49 % 32),
       b32char (N / 2 ^ 44 % 32), b32char (N / 2 ^ 39 % 32), b32char (N / 2 ^ 34 % 32),
       b32char (N / 2 ^ 29 % 32), b32char (N / 2 ^ 24 % 32), b32char (N / 2 ^ 19 % 32),
       b32char (N / 2 ^ 14 % 32), b32char (N / 2 ^ 9 % 32), b32char (N / 2 ^ 4 % 32),
       b32char (N % 16 * 2)] ++ List.replicate 3 '=' := by
  simp only [toBytes8, b32encodePy, encodeChunk, beBytesToNat, List.foldl, List.range_succ,
    List.range_zero, List.map_append, List.map_cons, List.map_nil, List.length_cons,
    List.length_nil, List.nil_append, List.cons_append, List.take, List.replicate,
    Nat.shiftRight_eq_div_pow, and31]
  norm_num
  refine ⟨?_, ?_, ?_, ?_, ?_, ?_, ?_, ?_, ?_, ?_, ?_, ?_, ?_⟩ <;>
    (congr 1; omega)

theorem b32rev_b32char_mod (x : Nat) : b32rev (b32char (x % 32)) = some (x % 32) :=
  b32rev_b32char _ (Nat.mod_lt _ (by norm_num))

theorem b32rev_b32char_mod16 (x : Nat) : b32rev (b32char (x % 16 * 2)) = some (x % 16 * 2) :=
  b32rev_b32char _ (by have := Nat.mod_lt x (y := 16) (by norm_num); omega)

/-- Decoding thirteen lower-cased alphabet characters with digit values
`g0 .. g12` recovers the packed integer. -/
theorem extract_13 (g0 g1 g2 g3 g4 g5 g6 g7 g8 g9 g10 g11 g12 : Nat)
    (h0 : g0 < 32) (h1 : g1 < 32) (h2 : g2 < 32) (h3 : g3 < 32) (h4 : g4 < 32)
    (h5 : g5 < 32) (h6 : g6 < 32) (h7 : g7 < 32) (h8 : g8 < 32) (h9 : g9 < 32)
    (h10 : g10 < 32) (h11 : g11 < 32) (h12 : g12 < 32) :
    extract_tid_components (String.mk (([b32char g0, b32char g1, b32char g2, b32char g3,
        b32char g4, b32char g5, b32char g6, b32char g7, b32char g8, b32char g9,
        b32char g10, b32char g11, b32char g12]).map lowerChar)) =
      .ok (((g0 * 32 ^ 7 + g1 * 32 ^ 6 + g2 * 32 ^ 5 + g3 * 32 ^ 4 + g4 * 32 ^ 3 +
             g5 * 32 ^ 2 + g6 * 32 + g7) * 2 ^ 24 +
            (g8 * 32 ^ 4 + g9 * 32 ^ 3 + g10 * 32 ^ 2 + g11 * 32 + g12) / 2) / 1024,
           ((g0 * 32 ^ 7 + g1 * 32 ^ 6 + g2 * 32 ^ 5 + g3 * 32 ^ 4 + g4 * 32 ^ 3 +
             g5 * 32 ^ 2 + g6 * 32 + g7) * 2 ^ 24 +
            (g8 * 32 ^ 4 + g9 * 32 ^ 3 + g10 * 32 ^ 2 + g11 * 32 + g12) / 2) % 1024) := by
  have hreps : ('=' :: '=' :: '=' :: ([] : List Char)) = List.replicate 3 '=' := rfl
  simp only [extract_tid_components, List.map_cons, List.map_nil, List.isEmpty_cons,
    Bool.false_eq_true, if_false, pyMatchTid13, List.take, List.all_cons, List.all_nil,
    isB32Lower_lowerChar_b32char, Bool.and_self, Bool.and_true, Bool.true_and, List.drop,
    pyDollarAccepts, List.isEmpty_nil, Bool.true_or, List.length_cons, List.length_nil]
  rw [if_neg (by simp)]
  simp only [base32_to_int, List.map_cons, List.map_nil, upperChar_lowerChar_b32char]
  rw [hreps]
  simp only [b32decodePy, List.length_append, List.length_cons, List.length_nil,
    List.length_replicate, rstripEq_append_pad]
  rw [rstripEq_of_last_ne _ (b32char g12) (by simp) (b32char_ne_pad _)]
  norm_num
  simp only [decodeQuanta, decodeQuantum, List.foldlM_cons, List.foldlM_nil,
    b32rev_b32char g0 h0, b32rev_b32char g1 h1, b32rev_b32char g2 h2, b32rev_b32char g3 h3,
    b32rev_b32char g4 h4, b32rev_b32char g5 h5, b32rev_b32char g6 h6, b32rev_b32char g7 h7,
    b32rev_b32char g8 h8, b32rev_b32char g9 h9, b32rev_b32char g10 h10, b32rev_b32char g11 h11,
    b32rev_b32char g12 h12, Option.map_some', Option.some_bind, bind, pure]
  simp only [reduceCtorEq, if_false, List.dropLast, List.flatten, toBytes5, List.take,
    beBytesToNat, List.foldl, List.append_nil, List.cons_append, List.nil_append,
    Nat.shiftLeft_eq, Except.map, Except.ok.injEq, Prod.mk.injEq,
    Nat.shiftRight_eq_div_pow, and1023]
  constructor <;> omega



/-- Recomposing the thirteen 5-bit digits of a 64-bit value (the last digit
carrying the padding bit) gives the value back. -/
theorem recompose64 (N : Nat) (hN : N < 2 ^ 64) :
    (N / 2 ^ 59 % 32 * 32 ^ 7 + N / 2 ^ 54 % 32 * 32 ^ 6 +
     N / 2 ^ 49 % 32 * 32 ^ 5 + N / 2 ^ 44 % 32 * 32 ^ 4 +
     N / 2 ^ 39 % 32 * 32 ^ 3 + N / 2 ^ 34 % 32 * 32 ^ 2 +
     N / 2 ^ 29 % 32 * 32 + N / 2 ^ 24 % 32) * 2 ^ 24 +
    (N / 2 ^ 19 % 32 * 32 ^ 4 + N / 2 ^ 14 % 32 * 32 ^ 3 +
     N / 2 ^ 9 % 32 * 32 ^ 2 + N / 2 ^ 4 % 32 * 32 +
     N % 16 * 2) / 2 = N := by
  have s1 : N / 2 ^ 59 % 32 * 32 + N / 2 ^ 54 % 32 = N / 2 ^ 54 % 2 ^ 10 := by omega
  have s2 : N / 2 ^ 54 % 2 ^ 10 * 32 + N / 2 ^ 49 % 32 = N / 2 ^ 49 % 2 ^ 15 := by omega
  have s3 : N / 2 ^ 49 % 2 ^ 15 * 32 + N / 2 ^ 44 % 32 = N / 2 ^ 44 % 2 ^ 20 := by omega
  have s4 : N / 2 ^ 44 % 2 ^ 20 * 32 + N / 2 ^ 39 % 32 = N / 2 ^ 39 % 2 ^ 25 := by omega
  have s5 : N / 2 ^ 39 % 2 ^ 25 * 32 + N / 2 ^ 34 % 32 = N / 2 ^ 34 % 2 ^ 30 := by omega
  have s6 : N / 2 ^ 34 % 2 ^ 30 * 32 + N / 2 ^ 29 % 32 = N / 2 ^ 29 % 2 ^ 35 := by omega
  have s7 : N / 2 ^ 29 % 2 ^ 35 * 32 + N / 2 ^ 24 % 32 = N / 2 ^ 24 % 2 ^ 40 := by omega
  have s8 : N / 2 ^ 24 % 2 ^ 40 = N / 2 ^ 24 := by omega
  have t1 : N / 2 ^ 19 % 32 * 32 + N / 2 ^ 14 % 32 = N / 2 ^ 14 % 2 ^ 10 := by omega
  have t2 : N / 2 ^ 14 % 2 ^ 10 * 32 + N / 2 ^ 9 % 32 = N / 2 ^ 9 % 2 ^ 15 := by omega
  have t3 : N / 2 ^ 9 % 2 ^ 15 * 32 + N / 2 ^ 4 % 32 = N / 2 ^ 4 % 2 ^ 20 := by omega
  have t4 : (N / 2 ^ 4 % 2 ^ 20 * 32 + N % 16 * 2) / 2 = N % 2 ^ 24 := by omega
  calc (N / 2 ^ 59 % 32 * 32 ^ 7 + N / 2 ^ 54 % 32 * 32 ^ 6 +
     N / 2 ^ 49 % 32 * 32 ^ 5 + N / 2 ^ 44 % 32 * 32 ^ 4 +
     N / 2 ^ 39 % 32 * 32 ^ 3 + N / 2 ^ 34 % 32 * 32 ^ 2 +
     N / 2 ^ 29 % 32 * 32 + N / 2 ^ 24 % 32) * 2 ^ 24 +
    (N / 2 ^ 19 % 32 * 32 ^ 4 + N / 2 ^ 14 % 32 * 32 ^ 3 +
     N / 2 ^ 9 % 32 * 32 ^ 2 + N / 2 ^ 4 % 32 * 32 +
     N % 16 * 2) / 2
      = (((((((N / 2 ^ 59 % 32 * 32 + N / 2 ^ 54 % 32) * 32 + N / 2 ^ 49 % 32) * 32
          + N / 2 ^ 44 % 32) * 32 + N / 2 ^ 39 % 32) * 32 + N / 2 ^ 34 % 32) * 32
          + N / 2 ^ 29 % 32) * 32 + N / 2 ^ 24 % 32) * 2 ^ 24 +
        ((((N / 2 ^ 19 % 32 * 32 + N / 2 ^ 14 % 32) * 32 + N / 2 ^ 9 % 32) * 32
          + N / 2 ^ 4 % 32) * 32 + N % 16 * 2) / 2 := by ring_nf
    _ = N / 2 ^ 24 * 2 ^ 24 + N % 2 ^ 24 := by
          rw [s1, s2, s3, s4, s5, s6, s7, s8, t1, t2, t3, t4]
    _ = N := by omega

set_option maxHeartbeats 1000000 in
theorem C2_tid_round_trip (t r : Nat) (ht : t < 2 ^ 54) (hr : r < 1024) :
    extract_tid_components (generate_rkey t r) = .ok (t, r) := by
  have hN : (t <<< 10) ||| r = 1024 * t + r := by
    rw [Nat.shiftLeft_eq, mul_comm t (2 ^ 10), ← Nat.mul_add_lt_is_or hr]
  have hstr : generate_rkey t r = String.mk
      (([b32char ((1024 * t + r) / 2 ^ 59 % 32), b32char ((1024 * t + r) / 2 ^ 54 % 32),
         b32char ((1024 * t + r) / 2 ^ 49 % 32), b32char ((1024 * t + r) / 2 ^ 44 % 32),
         b32char ((1024 * t + r) / 2 ^ 39 % 32), b32char ((1024 * t + r) / 2 ^ 34 % 32),
         b32char ((1024 * t + r) / 2 ^ 29 % 32), b32char ((1024 * t + r) / 2 ^ 24 % 32),
         b32char ((1024 * t + r) / 2 ^ 19 % 32), b32char ((1024 * t + r) / 2 ^ 14 % 32),
         b32char ((1024 * t + r) / 2 ^ 9 % 32), b32char ((1024 * t + r) / 2 ^ 4 % 32),
         b32char ((1024 * t + r) % 16 * 2)]).map lowerChar) := by
    simp only [generate_rkey, hN, b32encode8_eq, rstripEq_append_pad]
    rw [rstripEq_of_last_ne _ (b32char ((1024 * t + r) % 16 * 2)) (by simp) (b32char_ne_pad _)]
  rw [hstr]
  have hdec := extract_13 ((1024 * t + r) / 2 ^ 59 % 32) ((1024 * t + r) / 2 ^ 54 % 32)
    ((1024 * t + r) / 2 ^ 49 % 32) ((1024 * t + r) / 2 ^ 44 % 32) ((1024 * t + r) / 2 ^ 39 % 32)
    ((1024 * t + r) / 2 ^ 34 % 32) ((1024 * t + r) / 2 ^ 29 % 32) ((1024 * t + r) / 2 ^ 24 % 32)
    ((1024 * t + r) / 2 ^ 19 % 32) ((1024 * t + r) / 2 ^ 14 % 32) ((1024 * t + r) / 2 ^ 9 % 32)
    ((1024 * t + r) / 2 ^ 4 % 32) ((1024 * t + r) % 16 * 2)
    (Nat.mod_lt _ (by norm_num)) (Nat.mod_lt _ (by norm_num)) (Nat.mod_lt _ (by norm_num))
    (Nat.mod_lt _ (by norm_num)) (Nat.mod_lt _ (by norm_num)) (Nat.mod_lt _ (by norm_num))
    (Nat.mod_lt _ (by norm_num)) (Nat.mod_lt _ (by norm_num)) (Nat.mod_lt _ (by norm_num))
    (Nat.mod_lt _ (by norm_num)) (Nat.mod_lt _ (by norm_num)) (Nat.mod_lt _ (by norm_num))
    (by omega)
  rw [hdec]
  rw [recompose64 (1024 * t + r) (by omega)]
  simp only [Except.ok.injEq, Prod.mk.injEq]
  constructor <;> omega


/-- The result of stripping trailing padding from an appended list. -/
theorem rstripEq_append (X Y : List Char) :
    rstripEq (X ++ Y) =
      if rstripEq Y = [] then rstripEq X else X ++ rstripEq Y := by
  simp only [rstripEq, List.reverse_append, List.dropWhile_append]
  by_cases h : (Y.reverse.dropWhile (fun c => c = '=')).isEmpty
  · rw [if_pos h]
    rw [if_pos]
    simp only [List.isEmpty_iff] at h
    rw [h]
    rfl
  · rw [if_neg h]
    rw [if_neg]
    · simp [List.reverse_append]
    · simp only [List.isEmpty_iff] at h
      intro hc
      exact h (by simpa using congrArg List.reverse hc)

/-- A run of padding characters strips to nothing. -/
theorem rstripEq_replicate (k : Nat) : rstripEq (List.replicate k '=') = [] := by
  induction k with
  | zero => rfl
  | succ n ih =>
      have : (List.replicate (n + 1) '=') = List.replicate n '=' ++ ['='] := by
        simp [List.replicate_succ']
      rw [this, rstripEq_append]
      simp [ih, rstripEq]

/-- Alphabet-only characters are untouched by padding stripping. -/
theorem rstripEq_map_b32char (ds : List Nat) : rstripEq (ds.map b32char) = ds.map b32char := by
  cases hd : ds.getLast? with
  | none =>
      have : ds = [] := by simpa using hd
      rw [this]
      rfl
  | some d =>
      refine rstripEq_of_last_ne _ (b32char d) ?_ (b32char_ne_pad d)
      rw [List.getLast?_map, hd]
      rfl

/-- Shape of a full five-byte chunk: eight alphabet characters. -/
theorem encodeChunk5 (a b c d e : Nat) :
    ∃ ds : List Nat, ds.length = 8 ∧ encodeChunk [a, b, c, d, e] = ds.map b32char := by
  refine ⟨(List.range 8).map
    (fun i => (beBytesToNat ([a, b, c, d, e] ++ List.replicate 0 0) >>> (35 - 5 * i)) &&& 31),
    by simp, ?_⟩
  simp only [encodeChunk, List.length_cons, List.length_nil, List.map_map]
  norm_num
  rw [List.take_of_length_le (by simp)]
  rfl

/-- Shape of a final two-byte chunk: four alphabet characters and four
padding characters. -/
theorem encodeChunk2 (a b : Nat) :
    ∃ ds : List Nat, ds.length = 4 ∧
      encodeChunk [a, b] = ds.map b32char ++ List.replicate 4 '=' := by
  refine ⟨(List.range 4).map
    (fun i => (beBytesToNat ([a, b] ++ List.replicate 3 0) >>> (35 - 5 * i)) &&& 31),
    by simp, ?_⟩
  simp only [encodeChunk, List.length_cons, List.length_nil, List.map_map]
  norm_num
  try congr 1
  try rw [← List.map_take, List.take_range]
  try rfl
  done

/-- Shape of the base-32 encoding of a byte list whose length is 2 mod 5:
a run of alphabet characters followed by exactly four padding characters. -/
theorem b32encodePy_shape (bs : List Nat) (h : bs.length % 5 = 2) :
    ∃ ds : List Nat, ds.length = bs.length / 5 * 8 + 4 ∧
      b32encodePy bs = ds.map b32char ++ List.replicate 4 '=' := by
  induction bs using b32encodePy.induct with
  | case1 => simp at h
  | case2 b0 b1 b2 b3 b4 b5 rest ih =>
      have hlen : (b0 :: b1 :: b2 :: b3 :: b4 :: b5 :: rest).length % 5 = 2 := h
      have hlen2 : (b5 :: rest).length % 5 = 2 := by
        simp only [List.length_cons] at hlen ⊢
        omega
      obtain ⟨ds', hds'len, hds'⟩ := ih hlen2
      obtain ⟨d8, hd8len, hd8⟩ := encodeChunk5 b0 b1 b2 b3 b4
      refine ⟨d8 ++ ds', ?_, ?_⟩
      · simp only [List.length_append, List.length_cons, hd8len, hds'len]
        omega
      · simp only [b32encodePy, hd8, hds', List.map_append, List.append_assoc]
  | case3 bs h1 h2 =>
      have hle : bs.length ≤ 5 := by
        rcases bs with _ | ⟨a, _ | ⟨b, _ | ⟨c, _ | ⟨d, _ | ⟨e, _ | ⟨f, rest⟩⟩⟩⟩⟩⟩
        · simp
        · simp
        · simp
        · simp
        · simp
        · simp
        · exact absurd rfl (h2 a b c d e f rest)
      have hlen2 : bs.length = 2 := by omega
      rw [List.length_eq_two] at hlen2
      obtain ⟨x, y, rfl⟩ := hlen2
      obtain ⟨d4, hd4len, hd4⟩ := encodeChunk2 x y
      exact ⟨d4, by simp [hd4len], hd4⟩



/-- The SHA-256 digest always holds 32 bytes. -/
theorem sha256_length (m : List Nat) : (sha256 m).length = 32 := by
  simp [sha256, wordBytes]

/-- Structure of every string `generate_cid` returns: the `bafy` tag and the
lower-casing of 52 alphabet characters. -/
theorem generate_cid_shape (v : CborVal) (c : String) (h : generate_cid v = .ok c) :
    ∃ cbor_bytes ds, dagCborEncode v = .ok cbor_bytes ∧ ds.length = 52 ∧
      rstripEq (b32encodePy (sha256 cbor_bytes)) = List.map b32char ds ∧
      c = String.mk ('b' :: 'a' :: 'f' :: 'y' :: (List.map b32char ds).map lowerChar) := by
  cases henc : dagCborEncode v with
  | error e =>
      rw [generate_cid, henc] at h
      exact absurd h (by simp)
  | ok bs =>
      rw [generate_cid, henc] at h
      have hc : c = String.mk ('b' :: 'a' :: 'f' :: 'y' ::
          (rstripEq (b32encodePy (sha256 bs))).map lowerChar) := by
        have := h
        simp only [Except.ok.injEq] at this
        exact this.symm
      have h5 : (sha256 bs).length % 5 = 2 := by rw [sha256_length]
      obtain ⟨ds, hdslen, hds⟩ := b32encodePy_shape (sha256 bs) h5
      have hbody : rstripEq (b32encodePy (sha256 bs)) = List.map b32char ds := by
        rw [hds, rstripEq_append, if_pos (rstripEq_replicate 4), rstripEq_map_b32char]
      refine ⟨bs, ds, rfl, ?_, hbody, by rw [hc, hbody]⟩
      rw [sha256_length] at hdslen
      norm_num at hdslen
      exact hdslen

/-- C3: the claim states the exact composition of `generate_cid` — the
`bafy` tag on the lower-cased, padding-stripped base-32 encoding of the
SHA-256 digest of the canonical DAG-CBOR encoding — and that every
generated CID matches `^bafy[a-z2-7]+$` and has length above 50 (here:
exactly 56). -/
theorem C3_generate_cid_format (v : CborVal) (c : String) (h : generate_cid v = .ok c) :
    (∃ cbor_bytes, dagCborEncode v = .ok cbor_bytes ∧
        c = String.mk ('b' :: 'a' :: 'f' :: 'y' ::
              (rstripEq (b32encodePy (sha256 cbor_bytes))).map lowerChar)) ∧
    cidClaimPattern c = true ∧ 50 < c.length ∧ c.length = 56 := by
  obtain ⟨bs, ds, henc, hdslen, hbody, hc⟩ := generate_cid_shape v c h
  have hlen : c.length = 56 := by
    rw [hc]
    simp only [String.length, List.length_cons, List.length_map]
    omega
  refine ⟨⟨bs, henc, by rw [hc, hbody]⟩, ?_, by omega, hlen⟩
  rw [hc]
  simp only [cidClaimPattern, List.map_map]
  have hne : ds ≠ [] := by
    intro hnil
    rw [hnil] at hdslen
    simp at hdslen
  have hall : (ds.map (lowerChar ∘ b32char)).all isB32Lower = true :=
    List.all_eq_true.mpr (fun x hx => by
      obtain ⟨d, _, rfl⟩ := List.mem_map.mp hx
      exact isB32Lower_lowerChar_b32char d)
  rw [hall]
  simp [hne]

/-- C10: every string `generate_cid` returns passes `validate_cid`: it has
the `bafy` tag, only `[a-z2-7]` characters after it, and length exactly 56,
which sits at `validate_cid`'s lower length bound. -/
theorem C10_generated_cid_validates (v : CborVal) (c : String)
    (h : generate_cid v = .ok c) : validate_cid c = true := by
  obtain ⟨bs, ds, henc, hdslen, hbody, hc⟩ := generate_cid_shape v c h
  have hne : ds ≠ [] := by
    intro hnil
    rw [hnil] at hdslen
    simp at hdslen
  have hall : ∀ x ∈ (List.map b32char ds).map lowerChar, isB32Lower x = true := by
    intro x hx
    obtain ⟨d, _, rfl⟩ := List.mem_map.mp (by simpa [List.map_map] using hx)
    exact isB32Lower_lowerChar_b32char d
  rw [hc]
  simp only [validate_cid, pyMatchCid, String.length, List.length_cons, List.length_map]
  rw [List.takeWhile_eq_self_iff.mpr hall, List.dropWhile_eq_nil_iff.mpr hall]
  simp [pyDollarAccepts, hne, hdslen]



/-- Witness for C3 at the concrete record value `null` (DAG-CBOR `0xF6`). -/
theorem C3_generate_cid_format_witness :
    generate_cid CborVal.null = .ok "bafywczjrc3lxzzexlg2l2pferzw3yf4pwxedrdliij4kdq5gxkol4jq" ∧
    cidClaimPattern "bafywczjrc3lxzzexlg2l2pferzw3yf4pwxedrdliij4kdq5gxkol4jq" = true ∧
    50 < ("bafywczjrc3lxzzexlg2l2pferzw3yf4pwxedrdliij4kdq5gxkol4jq" : String).length ∧
    ("bafywczjrc3lxzzexlg2l2pferzw3yf4pwxedrdliij4kdq5gxkol4jq" : String).length = 56 := by
  have h : generate_cid CborVal.null = .ok "bafywczjrc3lxzzexlg2l2pferzw3yf4pwxedrdliij4kdq5gxkol4jq" := by decide
  exact ⟨h, (C3_generate_cid_format CborVal.null _ h).2.1,
    (C3_generate_cid_format CborVal.null _ h).2.2.1,
    (C3_generate_cid_format CborVal.null _ h).2.2.2⟩

/-- Witness for C10 at the concrete record value `null`. -/
theorem C10_generated_cid_validates_witness :
    validate_cid "bafywczjrc3lxzzexlg2l2pferzw3yf4pwxedrdliij4kdq5gxkol4jq" = true :=
  C10_generated_cid_validates CborVal.null _ (by decide)

/-- Witness for C2 at the concrete timestamp 3 and random value 5. -/
theorem C2_tid_round_trip_witness :
    3 < 2 ^ 54 ∧ 5 < 1024 ∧ extract_tid_components (generate_rkey 3 5) = .ok (3, 5) :=
  ⟨by norm_num, by norm_num, C2_tid_round_trip 3 5 (by norm_num) (by norm_num)⟩



/-- A quantum of alphabet characters decodes successfully. -/
theorem decodeQuantum_isSome (q : List Char) (h : ∀ c ∈ q, (b32rev c).isSome = true) :
    (decodeQuantum q).isSome = true := by
  suffices haux : ∀ acc : Nat,
      (q.foldlM (fun acc c => (b32rev c).map (fun v => 32 * acc + v)) acc).isSome = true from
    haux 0
  induction q with
  | nil => intro acc; rfl
  | cons c rest ih =>
      intro acc
      have hc := h c (by simp)
      obtain ⟨v, hv⟩ := Option.isSome_iff_exists.mp hc
      rw [List.foldlM_cons]
      simpa [hv] using ih (fun x hx => h x (by simp [hx])) (32 * acc + v)

/-- A payload of alphabet characters decodes successfully quantum by
quantum. -/
theorem decodeQuanta_isSome :
    ∀ s : List Char, (∀ c ∈ s, (b32rev c).isSome = true) →
      (decodeQuanta s).isSome = true := by
  intro s
  induction s using decodeQuanta.induct with
  | case1 => intro _; rfl
  | case2 c0 c1 c2 c3 c4 c5 c6 c7 c8 rest acc blocks lastAcc hrec hq ih =>
      intro _
      rw [decodeQuanta.eq_2, hq, hrec]
      rfl
  | case3 c0 c1 c2 c3 c4 c5 c6 c7 c8 rest hfalse ih =>
      intro h
      exfalso
      have hq : (decodeQuantum [c0, c1, c2, c3, c4, c5, c6, c7]).isSome = true := by
        refine decodeQuantum_isSome _ (fun c hc => h c ?_)
        simp only [List.mem_cons, List.not_mem_nil, or_false] at hc
        simp only [List.mem_cons]
        tauto
      have hrest : (decodeQuanta (c8 :: rest)).isSome = true := by
        refine ih (fun c hc => h c ?_)
        simp only [List.mem_cons] at hc ⊢
        tauto
      obtain ⟨acc, hacc⟩ := Option.isSome_iff_exists.mp hq
      obtain ⟨⟨blocks, lastAcc⟩, hpr⟩ := Option.isSome_iff_exists.mp hrest
      exact hfalse acc blocks lastAcc hacc hpr
  | case4 q h1 h2 acc hacc =>
      intro _
      rw [decodeQuanta.eq_3 q h1 h2, hacc]
      rfl
  | case5 q h1 h2 hnone =>
      intro h
      exfalso
      have hq := decodeQuantum_isSome q h
      obtain ⟨acc, hacc⟩ := Option.isSome_iff_exists.mp hq
      exact hnone acc hacc

/-- Characters of the class `[a-z2-7]` upper-case into the alphabet. -/
theorem b32rev_upperChar_isSome (c : Char) (h : isB32Lower c = true) :
    (b32rev (upperChar c)).isSome = true := by
  simp only [isB32Lower, Bool.or_eq_true, Bool.and_eq_true, decide_eq_true_eq] at h
  have hc : c = Char.ofNat c.toNat := (Char.ofNat_toNat c).symm
  rw [hc]
  obtain ⟨ha, hb⟩ | ⟨ha, hb⟩ := h <;>
    (generalize hm : c.toNat = m at ha hb ⊢
     interval_cases m <;> decide)


/-- Mapping over an `Except` preserves success. -/
theorem isOk_map {α β : Type} (f : α → β) (e : Except String α) :
    (Except.map f e).isOk = e.isOk := by
  cases e <;> rfl

/-- The last element of a list is a member. -/
theorem mem_of_getLast?_eq (l : List Char) (c : Char) (h : l.getLast? = some c) : c ∈ l := by
  have h2 : l ≠ [] := by intro hn; rw [hn] at h; simp at h
  have h3 := List.getLast?_eq_getLast l h2
  rw [h3] at h
  simp only [Option.some.injEq] at h
  rw [← h]
  exact List.getLast_mem h2

/-- Alphabet members are never the padding character. -/
theorem ne_pad_of_isSome (x : Char) (hx : (b32rev x).isSome = true) : x ≠ '=' := by
  intro heq
  rw [heq] at hx
  exact absurd hx (by decide)

/-- `_base32_to_int` succeeds on every string of thirteen class
characters. -/
theorem base32_to_int_isOk (s : String) (hlen : s.data.length = 13)
    (hall : s.data.all isB32Lower = true) : (base32_to_int s).isOk = true := by
  have hmem : ∀ c ∈ s.data, isB32Lower c = true := List.all_eq_true.mp hall
  have hup : ∀ c ∈ s.data.map upperChar, (b32rev c).isSome = true := by
    intro c hc
    obtain ⟨c', hc', rfl⟩ := List.mem_map.mp hc
    exact b32rev_upperChar_isSome c' (hmem c' hc')
  have hne : s.data ≠ [] := by
    intro hniln
    rw [hniln] at hlen
    simp at hlen
  have hstrip : rstripEq (s.data.map upperChar ++ ['=', '=', '=']) =
      s.data.map upperChar := by
    rw [rstripEq_append, if_pos (by decide)]
    cases hg : s.data.getLast? with
    | none => exact absurd (List.getLast?_eq_none_iff.mp hg) hne
    | some c' =>
        refine rstripEq_of_last_ne _ (upperChar c') ?_ ?_
        · rw [List.getLast?_map, hg]
          rfl
        · exact ne_pad_of_isSome _
            (b32rev_upperChar_isSome c' (hmem c' (mem_of_getLast?_eq _ _ hg)))
  have hXlen : (s.data.map upperChar).length = 13 := by simp [hlen]
  have hq := decodeQuanta_isSome (s.data.map upperChar) hup
  obtain ⟨⟨blocks, lastAcc⟩, hpr⟩ := Option.isSome_iff_exists.mp hq
  rw [base32_to_int]
  have hdec : (b32decodePy (s.data.map upperChar ++ ['=', '=', '='])).isOk = true := by
    rw [b32decodePy]
    rw [if_neg (by simp [hXlen])]
    simp only [hstrip, hpr, List.length_append, List.length_cons, List.length_nil, hXlen]
    norm_num
    split <;> rfl
  obtain ⟨bs, hbs⟩ : ∃ bs, b32decodePy (s.data.map upperChar ++ ['=', '=', '=']) = .ok bs := by
    cases hd : b32decodePy (s.data.map upperChar ++ ['=', '=', '=']) with
    | error e =>
        rw [hd] at hdec
        simp [Except.isOk, Except.toBool] at hdec
    | ok bs => exact ⟨bs, rfl⟩
  rw [hbs]
  rfl

/-- `_base32_to_int` fails whenever the padded upper-cased input is not a
multiple of eight characters long. -/
theorem base32_to_int_err (s : String)
    (h : (s.data.map upperChar ++ ['=', '=', '=']).length % 8 ≠ 0) :
    (base32_to_int s).isOk = false := by
  rw [base32_to_int, b32decodePy, if_pos h]
  rfl

/-- C9: `extract_tid_timestamp` and `extract_tid_components` raise
`ValueError` for exactly the strings that are not thirteen `[a-z2-7]`
characters, and return normally on all strings that are. A string of
thirteen class characters plus a trailing newline passes the regex (Python
`$`) but still raises, through the base-32 length check. -/
theorem C9_extract_error_iff_malformed (s : String) :
    ((extract_tid_timestamp s).isOk = true ↔
      s.data.length = 13 ∧ s.data.all isB32Lower = true) ∧
    ((extract_tid_components s).isOk = true ↔
      s.data.length = 13 ∧ s.data.all isB32Lower = true) := by
  by_cases hM : pyMatchTid13 s.data = true
  · by_cases hE : s.data.length = 13 ∧ s.data.all isB32Lower = true
    · obtain ⟨h13, hall⟩ := hE
      have hemp : s.data.isEmpty = false := by
        cases hd : s.data with
        | nil => rw [hd] at h13; simp at h13
        | cons c t => rfl
      have hok := base32_to_int_isOk s h13 hall
      constructor
      · rw [extract_tid_timestamp, if_neg (by simp [hemp]), if_neg (by simp [hM]),
          isOk_map, hok]
        simp [h13, hall]
      · rw [extract_tid_components, if_neg (by simp [hemp]), if_neg (by simp [hM]),
          isOk_map, hok]
        simp [h13, hall]
    · -- regex matched but the string is not exactly thirteen class chars:
      -- the dollar anchor accepted a trailing newline, so the length is 14
      -- and decoding fails on the 17-character padded input.
      have hMx := hM
      simp only [pyMatchTid13, Bool.and_eq_true, decide_eq_true_eq] at hMx
      obtain ⟨⟨htake, hallt⟩, hdollar⟩ := hMx
      have hdrop : s.data.drop 13 = ['\n'] := by
        simp only [pyDollarAccepts, Bool.or_eq_true, List.isEmpty_iff,
          decide_eq_true_eq] at hdollar
        rcases hdollar with hnil | hnl
        · exfalso
          have hlen13 : s.data.length = 13 := by
            have h1 : s.data.length ≤ 13 := by
              have := List.drop_eq_nil_iff.mp hnil
              omega
            simp only [List.length_take] at htake
            omega
          have : s.data.take 13 = s.data := List.take_of_length_le (by omega)
          rw [this] at hallt
          exact hE ⟨hlen13, hallt⟩
        · exact hnl
      have hlen14 : s.data.length = 14 := by
        have h1 := congrArg List.length hdrop
        simp only [List.length_drop, List.length_cons, List.length_nil] at h1
        simp only [List.length_take] at htake
        omega
      have herr : (base32_to_int s).isOk = false :=
        base32_to_int_err s (by simp [hlen14])
      have hemp : s.data.isEmpty = false := by
        cases hd : s.data with
        | nil => rw [hd] at hlen14; simp at hlen14
        | cons c t => rfl
      have hrhs : ¬ (s.data.length = 13 ∧ s.data.all isB32Lower = true) := by
        intro ⟨h13, _⟩
        omega
      constructor
      · rw [extract_tid_timestamp, if_neg (by simp [hemp]), if_neg (by simp [hM]),
          isOk_map, herr]
        simp only [Bool.false_eq_true, false_iff]
        exact hrhs
      · rw [extract_tid_components, if_neg (by simp [hemp]), if_neg (by simp [hM]),
          isOk_map, herr]
        simp only [Bool.false_eq_true, false_iff]
        exact hrhs
  · have hrhs : ¬ (s.data.length = 13 ∧ s.data.all isB32Lower = true) := by
      intro ⟨h13, hall⟩
      refine hM ?_
      simp only [pyMatchTid13, Bool.and_eq_true, decide_eq_true_eq]
      have htk : s.data.take 13 = s.data := List.take_of_length_le (by omega)
      refine ⟨⟨by rw [htk]; exact h13, by rw [htk]; exact hall⟩, ?_⟩
      simp [pyDollarAccepts, List.drop_eq_nil_iff, h13]
    constructor
    · rw [extract_tid_timestamp]
      by_cases hemp : s.data.isEmpty = true
      · rw [if_pos hemp]
        simp only [Except.isOk, Except.toBool, Bool.false_eq_true, false_iff]
        exact hrhs
      · rw [if_neg hemp, if_pos (by simp [hM])]
        simp only [Except.isOk, Except.toBool, Bool.false_eq_true, false_iff]
        exact hrhs
    · rw [extract_tid_components]
      by_cases hemp : s.data.isEmpty = true
      · rw [if_pos hemp]
        simp only [Except.isOk, Except.toBool, Bool.false_eq_true, false_iff]
        exact hrhs
      · rw [if_neg hemp, if_pos (by simp [hM])]
        simp only [Except.isOk, Except.toBool, Bool.false_eq_true, false_iff]
        exact hrhs



/-- Looking a key up after one `updateAssoc` step. -/
theorem lookupKey_updateAssoc (acc : List (String × List PyVal)) (k kq : String)
    (v : PyVal) :
    lookupKey (updateAssoc acc k v) kq =
      if kq = k then some (((lookupKey acc k).getD []) ++ [v])
      else lookupKey acc kq := by
  induction acc with
  | nil =>
      simp only [updateAssoc, lookupKey]
      split_ifs <;> simp_all
  | cons kv rest ih =>
      obtain ⟨k0, vs⟩ := kv
      simp only [updateAssoc, lookupKey]
      split_ifs <;> simp_all [lookupKey]

/-- Appending through `combineVals`. -/
theorem combineVals_snoc (o : Option (List PyVal)) (v : PyVal) (l : List PyVal) :
    combineVals (some ((o.getD []) ++ [v])) l = combineVals o (v :: l) := by
  cases o <;> simp [combineVals]

/-- `combineVals` composes. -/
theorem combineVals_append (o : Option (List PyVal)) (l1 l2 : List PyVal) :
    combineVals (combineVals o l1) l2 = combineVals o (l1 ++ l2) := by
  cases o with
  | some vs => simp [combineVals]
  | none =>
      cases l1 with
      | nil => simp [combineVals]
      | cons x t => simp [combineVals]

/-- Nothing appended leaves the collected values unchanged. -/
theorem combineVals_nil (o : Option (List PyVal)) : combineVals o [] = o := by
  cases o <;> simp [combineVals]

/-- Effect of folding one sample into the `all_fields` accumulator, at a
non-internal key. -/
theorem lookupKey_foldSample (sample : List (String × PyVal))
    (acc : List (String × List PyVal)) (k : String)
    (hk : startsWithUnderscore k = false) :
    lookupKey (sample.foldl (fun acc kv =>
        if startsWithUnderscore kv.1 then acc else updateAssoc acc kv.1 kv.2) acc) k =
      combineVals (lookupKey acc k) (sampleVals k sample) := by
  induction sample generalizing acc with
  | nil => simp [sampleVals, combineVals_nil]
  | cons kv rest ih =>
      obtain ⟨k0, v0⟩ := kv
      by_cases hu : startsWithUnderscore k0 = true
      · have hne : ¬ (k0 = k) := by
          intro hh
          rw [hh, hk] at hu
          exact Bool.false_ne_true hu
        rw [List.foldl_cons, if_pos hu, ih]
        have : sampleVals k ((k0, v0) :: rest) = sampleVals k rest := by
          simp [sampleVals, List.filter_cons, hne]
        rw [this]
      · rw [List.foldl_cons, if_neg hu, ih]
        by_cases hke : k0 = k
        · subst hke
          rw [lookupKey_updateAssoc]
          rw [if_pos rfl]
          have : sampleVals k0 ((k0, v0) :: rest) = v0 :: sampleVals k0 rest := by
            simp [sampleVals, List.filter_cons]
          rw [this, combineVals_snoc]
        · rw [lookupKey_updateAssoc]
          rw [if_neg (fun hh => hke hh.symm)]
          have : sampleVals k ((k0, v0) :: rest) = sampleVals k rest := by
            simp [sampleVals, List.filter_cons, hke]
          rw [this]

/-- Looking up a non-internal key in the collected `all_fields`. -/
theorem lookupKey_collectFields (samples : List (List (String × PyVal))) (k : String)
    (hk : startsWithUnderscore k = false) :
    lookupKey (collectFields samples) k = combineVals Option.none (allVals k samples) := by
  suffices haux : ∀ acc, lookupKey (samples.foldl (fun acc sample =>
      sample.foldl (fun acc kv =>
        if startsWithUnderscore kv.1 then acc else updateAssoc acc kv.1 kv.2) acc) acc) k =
      combineVals (lookupKey acc k) (allVals k samples) from haux []
  induction samples with
  | nil => intro acc; simp [allVals, combineVals_nil]
  | cons sample rest ih =>
      intro acc
      rw [List.foldl_cons, ih, lookupKey_foldSample sample acc k hk, combineVals_append]
      simp [allVals]

/-- Internal keys (leading underscore) are never collected. -/
theorem lookupKey_collectFields_underscore (samples : List (List (String × PyVal)))
    (k : String) (hk : startsWithUnderscore k = true) :
    lookupKey (collectFields samples) k = Option.none := by
  suffices haux : ∀ acc, lookupKey (samples.foldl (fun acc sample =>
      sample.foldl (fun acc kv =>
        if startsWithUnderscore kv.1 then acc else updateAssoc acc kv.1 kv.2) acc) acc) k =
      lookupKey acc k by
    exact haux []
  have hone : ∀ (sample : List (String × PyVal)) acc,
      lookupKey (sample.foldl (fun acc kv =>
        if startsWithUnderscore kv.1 then acc else updateAssoc acc kv.1 kv.2) acc) k =
      lookupKey acc k := by
    intro sample
    induction sample with
    | nil => intro acc; rfl
    | cons kv rest ih =>
        intro acc
        obtain ⟨k0, v0⟩ := kv
        by_cases hu : startsWithUnderscore k0 = true
        · rw [List.foldl_cons, if_pos hu, ih]
        · have hne : ¬ (k = k0) := by
            intro hh
            rw [← hh, hk] at hu
            exact hu rfl
          rw [List.foldl_cons, if_neg hu, ih, lookupKey_updateAssoc, if_neg hne]
  induction samples with
  | nil => intro acc; rfl
  | cons sample rest ih =>
      intro acc
      rw [List.foldl_cons, ih, hone]



/-- Keys of the accumulator after `updateAssoc`: unchanged when present,
appended when new. -/
theorem keys_updateAssoc (acc : List (String × List PyVal)) (k : String) (v : PyVal) :
    (updateAssoc acc k v).map Prod.fst =
      if k ∈ acc.map Prod.fst then acc.map Prod.fst
      else acc.map Prod.fst ++ [k] := by
  induction acc with
  | nil => simp [updateAssoc]
  | cons kv rest ih =>
      obtain ⟨k0, vs⟩ := kv
      simp only [updateAssoc, List.map_cons, List.mem_cons]
      by_cases h0 : k0 = k
      · subst h0
        simp
      · rw [if_neg h0]
        simp only [List.map_cons, ih]
        by_cases hm : k ∈ rest.map Prod.fst
        · simp [hm, h0]
        · rw [if_neg hm, if_neg ?hc]
          · simp
          · rintro (hh | hh)
            · exact h0 hh.symm
            · exact hm hh

/-- `updateAssoc` preserves distinctness of keys. -/
theorem nodupKeys_updateAssoc (acc : List (String × List PyVal)) (k : String)
    (v : PyVal) (h : (acc.map Prod.fst).Nodup) :
    ((updateAssoc acc k v).map Prod.fst).Nodup := by
  rw [keys_updateAssoc]
  split_ifs with hm
  · exact h
  · rw [List.nodup_append]
    refine ⟨h, List.nodup_singleton k, ?_⟩
    intro a ha hak
    simp only [List.mem_singleton] at hak
    subst hak
    exact hm ha

/-- The collected `all_fields` mapping has distinct keys. -/
theorem nodupKeys_collectFields (samples : List (List (String × PyVal))) :
    ((collectFields samples).map Prod.fst).Nodup := by
  have hone : ∀ (sample : List (String × PyVal)) (acc : List (String × List PyVal)),
      (acc.map Prod.fst).Nodup →
      ((sample.foldl (fun acc kv =>
        if startsWithUnderscore kv.1 then acc else updateAssoc acc kv.1 kv.2) acc).map
          Prod.fst).Nodup := by
    intro sample
    induction sample with
    | nil => intro acc h; exact h
    | cons kv rest ih =>
        intro acc h
        rw [List.foldl_cons]
        by_cases hu : startsWithUnderscore kv.1 = true
        · rw [if_pos hu]; exact ih acc h
        · rw [if_neg hu]; exact ih _ (nodupKeys_updateAssoc acc kv.1 kv.2 h)
  suffices haux : ∀ acc : List (String × List PyVal), (acc.map Prod.fst).Nodup →
      ((samples.foldl (fun acc sample =>
        sample.foldl (fun acc kv =>
          if startsWithUnderscore kv.1 then acc else updateAssoc acc kv.1 kv.2) acc)
        acc).map Prod.fst).Nodup from haux [] (by simp)
  induction samples with
  | nil => intro acc h; exact h
  | cons sample rest ih =>
      intro acc h
      rw [List.foldl_cons]
      exact ih _ (hone sample acc h)

/-- Under distinct keys, pair membership agrees with lookup. -/
theorem mem_iff_lookupKey (l : List (String × List PyVal))
    (h : (l.map Prod.fst).Nodup) (k : String) (vs : List PyVal) :
    (k, vs) ∈ l ↔ lookupKey l k = some vs := by
  induction l with
  | nil => simp [lookupKey]
  | cons kv rest ih =>
      obtain ⟨k0, vs0⟩ := kv
      simp only [List.map_cons, List.nodup_cons] at h
      obtain ⟨hnotin, hnd⟩ := h
      simp only [List.mem_cons, lookupKey]
      by_cases h0 : k0 = k
      · subst h0
        rw [if_pos rfl]
        constructor
        · rintro (heq | hmem)
          · rw [Prod.mk.injEq] at heq
            rw [heq.2]
          · exact absurd (List.mem_map.mpr ⟨(k0, vs), hmem, rfl⟩) hnotin
        · intro hsome
          left
          rw [Prod.mk.injEq]
          refine ⟨rfl, ?_⟩
          have := Option.some.injEq vs0 vs
          exact (Option.some_inj.mp hsome).symm
      · rw [if_neg h0, ← ih hnd]
        constructor
        · rintro (heq | hmem)
          · rw [Prod.mk.injEq] at heq
            exact absurd heq.1.symm h0
          · exact hmem
        · intro hmem
          right
          exact hmem

/-- Under distinct keys, the values of one sample for key `k` are the single
looked-up value. -/
theorem sampleVals_eq_lookup (sample : List (String × PyVal))
    (h : (sample.map Prod.fst).Nodup) (k : String) :
    sampleVals k sample =
      match lookupKey sample k with
      | some v => [v]
      | Option.none => [] := by
  induction sample with
  | nil => rfl
  | cons kv rest ih =>
      obtain ⟨k0, v0⟩ := kv
      simp only [List.map_cons, List.nodup_cons] at h
      obtain ⟨hnotin, hnd⟩ := h
      by_cases h0 : k0 = k
      · subst h0
        have hrest : sampleVals k0 rest = [] := by
          simp only [sampleVals, List.map_eq_nil_iff, List.filter_eq_nil_iff]
          intro kv hkv
          simp only [decide_eq_true_eq]
          intro heq
          exact hnotin (List.mem_map.mpr ⟨kv, hkv, heq⟩)
        have hstep : sampleVals k0 ((k0, v0) :: rest) = v0 :: sampleVals k0 rest := by
          simp [sampleVals, List.filter_cons]
        rw [hstep, hrest]
        simp [lookupKey]
      · have hstep : sampleVals k ((k0, v0) :: rest) = sampleVals k rest := by
          simp [sampleVals, List.filter_cons, h0]
        rw [hstep, ih hnd]
        simp [lookupKey, h0]

/-- The non-null values collected across samples count exactly the samples
where the field is present and non-null. -/
theorem count_allVals (samples : List (List (String × PyVal)))
    (hnd : ∀ s ∈ samples, (s.map Prod.fst).Nodup) (k : String) :
    ((allVals k samples).filter (fun v => ¬ v.isNone)).length = countNonNull k samples := by
  induction samples with
  | nil => rfl
  | cons s rest ih =>
      have hs := hnd s (by simp)
      have hrest := ih (fun x hx => hnd x (by simp [hx]))
      have hcons : allVals k (s :: rest) = sampleVals k s ++ allVals k rest := by
        simp [allVals]
      rw [hcons, List.filter_append, List.length_append, hrest]
      have hcount : countNonNull k (s :: rest) =
          (if presentNonNull k s = true then 1 else 0) + countNonNull k rest := by
        simp only [countNonNull, List.filter_cons]
        split_ifs with hp
        · simp [Nat.add_comm]
        · simp
      rw [hcount]
      congr 1
      rw [sampleVals_eq_lookup s hs k]
      cases hl : lookupKey s k with
      | none => simp [presentNonNull, hl]
      | some v =>
          simp only [presentNonNull, hl]
          by_cases hv : v.isNone = true
          · simp [hv]
          · simp [hv]



/-- C4 (amended): a field is `required` iff it is not an internal
(underscore-prefixed) field and the fraction of samples in which it appears
with a non-null value strictly exceeds 0.8. The per-sample key-distinctness
hypothesis records that samples come from Python dicts. -/
theorem C4_required_iff (samples : List (List (String × PyVal)))
    (hnd : ∀ s ∈ samples, (s.map Prod.fst).Nodup) (k : String) :
    k ∈ (infer_schema samples).required ↔
      startsWithUnderscore k = false ∧
      ((countNonNull k samples : ℚ) / ((samples.length : Nat) : ℚ) > (0.8 : ℚ)) := by
  by_cases hemp : samples.isEmpty = true
  · have hnil : samples = [] := List.isEmpty_iff.mp hemp
    subst hnil
    constructor
    · intro hmem
      exact absurd hmem (by simp [infer_schema])
    · rintro ⟨hk, hrate⟩
      simp only [countNonNull, List.filter_nil, List.length_nil, Nat.cast_zero] at hrate
      norm_num at hrate
  · rw [infer_schema, if_neg hemp]
    simp only [List.mem_filterMap]
    constructor
    · rintro ⟨⟨kf, vs⟩, hmem, hcond⟩
      by_cases hc : ((vs.filter (fun v => ¬ v.isNone)).length : ℚ) /
          ((samples.length : Nat) : ℚ) > (0.8 : ℚ)
      · rw [if_pos hc] at hcond
        simp only [Option.some.injEq] at hcond
        rw [hcond] at hmem
        have hlook : lookupKey (collectFields samples) k = some vs :=
          (mem_iff_lookupKey _ (nodupKeys_collectFields samples) k vs).mp hmem
        have hk : startsWithUnderscore k = false := by
          by_cases hu : startsWithUnderscore k = true
          · rw [lookupKey_collectFields_underscore samples k hu] at hlook
            exact absurd hlook (by simp)
          · simpa using hu
        have hvals : vs = allVals k samples := by
          rw [lookupKey_collectFields samples k hk] at hlook
          unfold combineVals at hlook
          by_cases he : (allVals k samples).isEmpty = true
          · rw [if_pos he] at hlook
            exact absurd hlook (by simp)
          · rw [if_neg he] at hlook
            exact (Option.some_inj.mp hlook).symm
        refine ⟨hk, ?_⟩
        rw [← count_allVals samples hnd k, ← hvals]
        exact hc
      · rw [if_neg hc] at hcond
        exact absurd hcond (by simp)
    · rintro ⟨hk, hrate⟩
      have hcount_pos : 0 < countNonNull k samples := by
        by_contra hz
        push_neg at hz
        have h0 : countNonNull k samples = 0 := by omega
        rw [h0] at hrate
        norm_num at hrate
      have hfil : ((allVals k samples).filter (fun v => ¬ v.isNone)).length =
          countNonNull k samples := count_allVals samples hnd k
      have hne : (allVals k samples).isEmpty = false := by
        cases hv : allVals k samples with
        | nil =>
            rw [hv] at hfil
            simp at hfil
            omega
        | cons x t => rfl
      have hlook : lookupKey (collectFields samples) k = some (allVals k samples) := by
        rw [lookupKey_collectFields samples k hk]
        unfold combineVals
        rw [if_neg (by simp [hne])]
      refine ⟨(k, allVals k samples),
        (mem_iff_lookupKey _ (nodupKeys_collectFields samples) k _).mpr hlook, ?_⟩
      rw [if_pos]
      rw [hfil]
      exact hrate



/-- C4: the claim as frozen omits the internal-field exclusion.
Counterexample: the field `_filepath`, present with a non-null value in 1
of 1 samples (occurrence rate 1 > 0.8), is nevertheless not `required`,
because `infer_schema` skips every field whose name starts with `_`. -/
theorem C4_counterexample :
    "_filepath" ∉ (infer_schema [[("_filepath", PyVal.str "post.md")]]).required ∧
    ((countNonNull "_filepath" [[("_filepath", PyVal.str "post.md")]] : ℚ) /
      (([[("_filepath", PyVal.str "post.md")]] :
        List (List (String × PyVal))).length : ℚ) > (0.8 : ℚ)) := by
  constructor
  · decide
  · have hc : countNonNull "_filepath" [[("_filepath", PyVal.str "post.md")]] = 1 := rfl
    rw [hc]
    norm_num

/-- Witness for C4 at the spec's boundary examples: a field present
non-null in 5 of 6 samples is required, in 4 of 5 samples it is not. -/
theorem C4_required_iff_witness :
    "title" ∈ (infer_schema
      [[("title", PyVal.str "a")], [("title", PyVal.str "b")],
       [("title", PyVal.str "c")], [("title", PyVal.str "d")],
       [("title", PyVal.str "e")], [("date", PyVal.str "x")]]).required ∧
    "title" ∉ (infer_schema
      [[("title", PyVal.str "a")], [("title", PyVal.str "b")],
       [("title", PyVal.str "c")], [("title", PyVal.str "d")],
       [("date", PyVal.str "x")]]).required := by
  constructor
  · refine (C4_required_iff _ (by decide) "title").mpr ⟨rfl, ?_⟩
    have hc : countNonNull "title"
        [[("title", PyVal.str "a")], [("title", PyVal.str "b")],
         [("title", PyVal.str "c")], [("title", PyVal.str "d")],
         [("title", PyVal.str "e")], [("date", PyVal.str "x")]] = 5 := rfl
    rw [hc]
    simp only [List.length_cons, List.length_nil]
    norm_num
  · intro hmem
    have h := ((C4_required_iff _ (by decide) "title").mp hmem).2
    have hc : countNonNull "title"
        [[("title", PyVal.str "a")], [("title", PyVal.str "b")],
         [("title", PyVal.str "c")], [("title", PyVal.str "d")],
         [("date", PyVal.str "x")]] = 4 := rfl
    rw [hc] at h
    simp only [List.length_cons, List.length_nil] at h
    norm_num at h



/-- `arrayItemSchema` scans for the first nonempty list: it agrees with the
`find?`-based description of that scan on every input. -/
theorem arrayItemSchema_eq_find (vs : List PyVal) :
    arrayItemSchema vs =
      match vs.find? (fun v => match v with | .list (_ :: _) => true | _ => false) with
      | some (.list (x :: _)) =>
          ⟨"array", Option.none, some (map_python_type_to_json x.typeName)⟩
      | _ => ⟨"array", Option.none, Option.none⟩ := by
  induction vs with
  | nil => rfl
  | cons v rest ih =>
    rcases v with _ | b | n | q | st | l | d
    · simpa [arrayItemSchema, List.find?] using ih
    · simpa [arrayItemSchema, List.find?] using ih
    · simpa [arrayItemSchema, List.find?] using ih
    · simpa [arrayItemSchema, List.find?] using ih
    · simpa [arrayItemSchema, List.find?] using ih
    · cases l with
      | nil => simpa [arrayItemSchema, List.find?] using ih
      | cons x xs => simp [arrayItemSchema, List.find?]
    · simpa [arrayItemSchema, List.find?] using ih

/-- C5: `infer_field_type` classifies the non-null subset of its input by
the fixed priority empty -> string; all ISO date strings -> string with
format date-time; all lists -> array with the items type read from the
first element of the first non-empty list (omitted when every list is
empty); all booleans -> boolean; all numbers -> number; all mappings ->
object; anything else -> string. Stated as a refinement: the source-side
function equals the claim-side description on every input, and the spec's
three worked examples hold. -/
theorem C5_infer_field_type_priority :
    (∀ values : List PyVal, infer_field_type values = inferFieldTypeSpec values) ∧
    infer_field_type [PyVal.str "2026-01-01T00:00:00Z", PyVal.str "2026-01-02T00:00:00Z"]
      = ⟨"string", some "date-time", Option.none⟩ ∧
    infer_field_type [PyVal.list [PyVal.str "a", PyVal.str "b"], PyVal.list [PyVal.str "c"]]
      = ⟨"array", Option.none, some "string"⟩ ∧
    infer_field_type [PyVal.bool true, PyVal.bool false]
      = ⟨"boolean", Option.none, Option.none⟩ := by
  refine ⟨fun values => ?_, by decide, by decide, by decide⟩
  simp only [infer_field_type, inferFieldTypeSpec, arrayItemSchema_eq_find]





/-- The only error the DAG-CBOR encoder can raise is the 64-bit integer
range error, so every error value carries that one message. -/
theorem dagCborEncode_error_eq :
    ∀ v : CborVal, ∀ e, dagCborEncode v = Except.error e → e = "integer out of range" := by
  refine dagCborEncode.induct
    (fun v => ∀ e, dagCborEncode v = Except.error e → e = "integer out of range")
    (fun kvs => ∀ e, encodePairs kvs = Except.error e → e = "integer out of range")
    (fun xs => ∀ e, encodeItems xs = Except.error e → e = "integer out of range")
    ?_ ?_ ?_ ?_ ?_ ?_ ?_ ?_ ?_ ?_ ?_ ?_ ?_ ?_ ?_ ?_ ?_ ?_ ?_ ?_ ?_
  all_goals intros
  all_goals try simp_all [dagCborEncode, encodeItems, encodePairs, Int.not_lt, Int.not_le]
  all_goals intro e h
  all_goals split_ifs at h <;>
    first
      | (injection h with h2 ; exact h2.symm)
      | injection h
      | omega

/-- The error message of a failing mapping-entry encoding. -/
theorem encodePairs_error_eq (kvs : List (String × CborVal)) (e : String)
    (h : encodePairs kvs = Except.error e) : e = "integer out of range" :=
  dagCborEncode_error_eq (CborVal.map kvs) e (by simp [dagCborEncode, h])

/-- Byte-wise lexicographic comparison is total. -/
theorem lexLeBytes_total : ∀ a b : List Nat, lexLeBytes a b || lexLeBytes b a
  | [], b => by cases b <;> simp [lexLeBytes]
  | _ :: _, [] => by simp [lexLeBytes]
  | x :: xs, y :: ys => by
      simp only [lexLeBytes]
      rcases Nat.lt_trichotomy x y with h | h | h
      · simp [h]
      · simp only [h, Nat.lt_irrefl, if_false]
        exact lexLeBytes_total xs ys
      · simp [h, Nat.lt_asymm h]

/-- Byte-wise lexicographic comparison is transitive. -/
theorem lexLeBytes_trans : ∀ a b c : List Nat,
    lexLeBytes a b → lexLeBytes b c → lexLeBytes a c
  | [], _, c => fun _ _ => by cases c <;> simp [lexLeBytes]
  | _ :: _, [], _ => fun h _ => by simp [lexLeBytes] at h
  | _ :: _, _ :: _, [] => fun _ h => by simp [lexLeBytes] at h
  | x :: xs, y :: ys, z :: zs => fun h1 h2 => by
      simp only [lexLeBytes] at h1 h2 ⊢
      split_ifs at h1 h2 ⊢ <;> try omega
      all_goals try rfl
      all_goals try exact lexLeBytes_trans xs ys zs h1 h2
      all_goals omega

/-- Byte-wise lexicographic comparison is antisymmetric. -/
theorem lexLeBytes_antisymm : ∀ a b : List Nat,
    lexLeBytes a b → lexLeBytes b a → a = b
  | [], [] => fun _ _ => rfl
  | [], _ :: _ => fun _ h => by simp [lexLeBytes] at h
  | _ :: _, [] => fun h _ => by simp [lexLeBytes] at h
  | x :: xs, y :: ys => fun h1 h2 => by
      simp only [lexLeBytes] at h1 h2
      split_ifs at h1 h2 <;> try omega
      have hxy : x = y := by omega
      rw [hxy, lexLeBytes_antisymm xs ys h1 h2]

/-- The canonical DAG-CBOR key order is total. -/
theorem keyLE_total (a b : List Nat) : keyLE a b || keyLE b a := by
  simp only [keyLE]
  rcases Nat.lt_trichotomy a.length b.length with h | h | h
  · simp [Nat.ne_of_lt h, (Nat.ne_of_lt h).symm, h]
  · simp only [h, if_pos rfl]
    exact lexLeBytes_total a b
  · simp [Nat.ne_of_lt h, (Nat.ne_of_lt h).symm, h, Nat.lt_asymm h]

/-- The canonical DAG-CBOR key order is transitive. -/
theorem keyLE_trans (a b c : List Nat) :
    keyLE a b → keyLE b c → keyLE a c := by
  simp only [keyLE]
  intro h1 h2
  split_ifs at h1 h2 ⊢ <;>
    first
      | exact lexLeBytes_trans a b c h1 h2
      | (simp only [decide_eq_true_eq] at * ; omega)

/-- The canonical DAG-CBOR key order is antisymmetric. -/
theorem keyLE_antisymm (a b : List Nat) :
    keyLE a b → keyLE b a → a = b := by
  simp only [keyLE]
  intro h1 h2
  split_ifs at h1 h2 <;>
    first
      | exact lexLeBytes_antisymm a b h1 h2
      | (simp only [decide_eq_true_eq] at * ; omega)


/-- Two sorted pair lists that are permutations of each other with distinct
keys are equal: canonical map-key sorting does not depend on the input
order of the entries. -/
theorem sorted_perm_eq :
    ∀ l1 l2 : List (List Nat × List Nat), List.Perm l1 l2 →
      l1.Pairwise (fun p q => keyLE p.1 q.1 = true) →
      l2.Pairwise (fun p q => keyLE p.1 q.1 = true) →
      (l1.map Prod.fst).Nodup → l1 = l2
  | [], l2 => fun h _ _ _ => (h.symm.eq_nil).symm
  | a :: t1, [] => fun h _ _ _ => absurd h.eq_nil (by simp)
  | a :: t1, b :: t2 => fun h hp1 hp2 hnd => by
      by_cases hab : a = b
      · subst hab
        have ht : List.Perm t1 t2 := h.cons_inv
        have := sorted_perm_eq t1 t2 ht (List.pairwise_cons.mp hp1).2
          (List.pairwise_cons.mp hp2).2 (by simpa using (List.nodup_cons.mp (by simpa using hnd)).2)
        rw [this]
      · have hb1 : b ∈ a :: t1 := h.mem_iff.mpr (List.mem_cons_self b t2)
        have ha2 : a ∈ b :: t2 := h.mem_iff.mp (List.mem_cons_self a t1)
        have hbt1 : b ∈ t1 := by
          rcases List.mem_cons.mp hb1 with h1 | h1
          · exact absurd h1.symm hab
          · exact h1
        have hat2 : a ∈ t2 := by
          rcases List.mem_cons.mp ha2 with h1 | h1
          · exact absurd h1 hab
          · exact h1
        have hab1 : keyLE a.1 b.1 = true := (List.pairwise_cons.mp hp1).1 b hbt1
        have hba1 : keyLE b.1 a.1 = true := (List.pairwise_cons.mp hp2).1 a hat2
        have hkey : a.1 = b.1 := keyLE_antisymm _ _ hab1 hba1
        have hnotin : a.1 ∉ t1.map Prod.fst := (List.nodup_cons.mp (by simpa using hnd)).1
        exact absurd (hkey ▸ List.mem_map_of_mem Prod.fst hbt1) hnotin

/-- The keys of a successful mapping-entry encoding are the UTF-8
encodings of the dictionary keys, in order. -/
theorem encodePairs_ok_fst :
    ∀ (l : List (String × CborVal)) (p : List (List Nat × List Nat)),
      encodePairs l = Except.ok p →
      p.map Prod.fst = l.map (fun kv => utf8Encode kv.1)
  | [], p => fun h => by
      simp only [encodePairs] at h
      cases h
      rfl
  | (k, v) :: rest, p => fun h => by
      simp only [encodePairs] at h
      cases henc : dagCborEncode v with
      | error e => simp [henc] at h
      | ok ev =>
        cases hrest : encodePairs rest with
        | error e => simp [henc, hrest] at h
        | ok es =>
          simp only [henc, hrest, Except.ok.injEq] at h
          subst h
          simp [encodePairs_ok_fst rest es hrest]

/-- Encoding the entries of permuted dictionaries: either both fail with
the integer range error, or both succeed with permuted entry lists. -/
theorem encodePairs_perm (l1 l2 : List (String × CborVal)) (h : List.Perm l1 l2) :
    (encodePairs l1 = Except.error "integer out of range" ∧
     encodePairs l2 = Except.error "integer out of range") ∨
    (∃ p1 p2, encodePairs l1 = Except.ok p1 ∧ encodePairs l2 = Except.ok p2 ∧
      List.Perm p1 p2) := by
  induction h with
  | nil => exact Or.inr ⟨[], [], rfl, rfl, List.Perm.nil⟩
  | cons x h ih =>
      obtain ⟨k, v⟩ := x
      cases henc : dagCborEncode v with
      | error e =>
          have he : e = "integer out of range" := dagCborEncode_error_eq v e henc
          subst he
          exact Or.inl ⟨by simp [encodePairs, henc], by simp [encodePairs, henc]⟩
      | ok ev =>
          rcases ih with ⟨h1, h2⟩ | ⟨p1, p2, h1, h2, hp⟩
          · exact Or.inl ⟨by simp [encodePairs, henc, h1], by simp [encodePairs, henc, h2]⟩
          · exact Or.inr ⟨(utf8Encode k, ev) :: p1, (utf8Encode k, ev) :: p2,
              by simp [encodePairs, henc, h1], by simp [encodePairs, henc, h2], hp.cons _⟩
  | swap x y l =>
      obtain ⟨kx, vx⟩ := x
      obtain ⟨ky, vy⟩ := y
      cases hex : dagCborEncode vx with
      | error e =>
          have he : e = "integer out of range" := dagCborEncode_error_eq vx e hex
          subst he
          cases hey : dagCborEncode vy with
          | error f =>
              have hf : f = "integer out of range" := dagCborEncode_error_eq vy f hey
              subst hf
              exact Or.inl ⟨by simp [encodePairs, hex, hey], by simp [encodePairs, hex, hey]⟩
          | ok evy =>
              exact Or.inl ⟨by simp [encodePairs, hex, hey], by simp [encodePairs, hex, hey]⟩
      | ok evx =>
          cases hey : dagCborEncode vy with
          | error f =>
              have hf : f = "integer out of range" := dagCborEncode_error_eq vy f hey
              subst hf
              exact Or.inl ⟨by simp [encodePairs, hex, hey], by simp [encodePairs, hex, hey]⟩
          | ok evy =>
              cases hl : encodePairs l with
              | error g =>
                  have hg : g = "integer out of range" := encodePairs_error_eq l g hl
                  subst hg
                  exact Or.inl ⟨by simp [encodePairs, hex, hey, hl],
                    by simp [encodePairs, hex, hey, hl]⟩
              | ok pl =>
                  exact Or.inr ⟨(utf8Encode ky, evy) :: (utf8Encode kx, evx) :: pl,
                    (utf8Encode kx, evx) :: (utf8Encode ky, evy) :: pl,
                    by simp [encodePairs, hex, hey, hl],
                    by simp [encodePairs, hex, hey, hl],
                    List.Perm.swap _ _ _⟩
  | trans h1 h2 ih1 ih2 =>
      rcases ih1 with ⟨ha, hb⟩ | ⟨p1, p2, ha, hb, hp⟩
      · rcases ih2 with ⟨hc, hd⟩ | ⟨q1, q2, hc, hd, hq⟩
        · exact Or.inl ⟨ha, hd⟩
        · rw [hb] at hc; cases hc
      · rcases ih2 with ⟨hc, hd⟩ | ⟨q1, q2, hc, hd, hq⟩
        · rw [hb] at hc; cases hc
        · rw [hb] at hc
          cases hc
          exact Or.inr ⟨p1, q2, ha, hd, hp.trans hq⟩



/-- C7 (amended): `generate_cid` is a function of the canonical DAG-CBOR
serialization — values with equal serializations receive equal CIDs — and
it is independent of dictionary insertion order: permuting the entries of
a mapping with pairwise-distinct (UTF-8 encoded) keys leaves the CID
unchanged. (The converse implication of the source claim, that equal CIDs
force equal serializations, is exactly injectivity of SHA-256 on DAG-CBOR
encodings and is refuted nonconstructively elsewhere in this file.) -/
theorem C7_cid_canonical :
    (∀ v1 v2 : CborVal, dagCborEncode v1 = dagCborEncode v2 →
        generate_cid v1 = generate_cid v2) ∧
    (∀ kvs1 kvs2 : List (String × CborVal), List.Perm kvs1 kvs2 →
        (kvs1.map (fun kv => utf8Encode kv.1)).Nodup →
        generate_cid (CborVal.map kvs1) = generate_cid (CborVal.map kvs2)) := by
  constructor
  · intro v1 v2 h
    simp only [generate_cid, h]
  · intro kvs1 kvs2 hperm hnd
    rcases encodePairs_perm kvs1 kvs2 hperm with ⟨h1, h2⟩ | ⟨p1, p2, h1, h2, hp⟩
    · simp [generate_cid, dagCborEncode, h1, h2]
    · have htrans : ∀ a b c : List Nat × List Nat,
          keyLE a.1 b.1 → keyLE b.1 c.1 → keyLE a.1 c.1 :=
        fun a b c => keyLE_trans a.1 b.1 c.1
      have htot : ∀ a b : List Nat × List Nat, keyLE a.1 b.1 || keyLE b.1 a.1 :=
        fun a b => keyLE_total a.1 b.1
      have hs1 := List.sorted_mergeSort htrans htot p1
      have hs2 := List.sorted_mergeSort htrans htot p2
      have hperm_sorted :
          List.Perm (p1.mergeSort (fun p q => keyLE p.1 q.1))
            (p2.mergeSort (fun p q => keyLE p.1 q.1)) :=
        ((List.mergeSort_perm p1 _).trans hp).trans (List.mergeSort_perm p2 _).symm
      have hnd1 : ((p1.mergeSort (fun p q => keyLE p.1 q.1)).map Prod.fst).Nodup := by
        have hfst : p1.map Prod.fst = kvs1.map (fun kv => utf8Encode kv.1) :=
          encodePairs_ok_fst kvs1 p1 h1
        have hmp : List.Perm ((p1.mergeSort (fun p q => keyLE p.1 q.1)).map Prod.fst)
            (p1.map Prod.fst) := (List.mergeSort_perm p1 _).map _
        rw [hmp.nodup_iff, hfst]
        exact hnd
      have heq : p1.mergeSort (fun p q => keyLE p.1 q.1)
          = p2.mergeSort (fun p q => keyLE p.1 q.1) :=
        sorted_perm_eq _ _ hperm_sorted hs1 hs2 hnd1
      have hlen : kvs1.length = kvs2.length := hperm.length_eq
      simp [generate_cid, dagCborEncode, h1, h2, heq, hlen]

/-- Witness for C7 at concrete inputs: a byte-string value compared with
itself, and a two-entry dictionary in both insertion orders. -/
theorem C7_cid_canonical_witness :
    generate_cid (CborVal.bytes [1, 2, 3]) = generate_cid (CborVal.bytes [1, 2, 3]) ∧
    generate_cid (CborVal.map [("b", CborVal.int 2), ("a", CborVal.int 1)]) =
      generate_cid (CborVal.map [("a", CborVal.int 1), ("b", CborVal.int 2)]) :=
  ⟨C7_cid_canonical.1 _ _ rfl,
   C7_cid_canonical.2 _ _ (List.Perm.swap _ _ _) (by decide)⟩



/-- Every entry of a 32-bit word's byte encoding is a byte. -/
theorem wordBytes_lt (x : Nat) : ∀ b ∈ wordBytes x, b < 256 := by
  intro b hb
  simp only [wordBytes, List.mem_cons, List.not_mem_nil, or_false] at hb
  rcases hb with h | h | h | h <;> subst h <;> exact Nat.mod_lt _ (by norm_num)

/-- Every entry of a SHA-256 digest is a byte. -/
theorem sha256_byte_lt (m : List Nat) : ∀ b ∈ sha256 m, b < 256 := by
  intro b hb
  simp only [sha256, List.mem_append] at hb
  rcases hb with (((((((h | h) | h) | h) | h) | h) | h) | h) <;>
    exact wordBytes_lt _ _ h

/-- Big-endian byte recomposition, with an explicit accumulator: the value
is bounded by the byte count. -/
theorem beBytesToNat_foldl_lt :
    ∀ (l : List Nat) (acc : Nat), (∀ b ∈ l, b < 256) →
      l.foldl (fun a b => 256 * a + b) acc < (acc + 1) * 256 ^ l.length
  | [], acc => fun _ => by simpa using Nat.lt_succ_self acc
  | b :: t, acc => fun hb => by
      have ht := beBytesToNat_foldl_lt t (256 * acc + b)
        (fun x hx => hb x (List.mem_cons_of_mem _ hx))
      have hblt : b < 256 := hb b (List.mem_cons_self _ _)
      calc (b :: t).foldl (fun a b => 256 * a + b) acc
          = t.foldl (fun a b => 256 * a + b) (256 * acc + b) := rfl
        _ < (256 * acc + b + 1) * 256 ^ t.length := ht
        _ ≤ (acc + 1) * 256 ^ (b :: t).length := by
            simp only [List.length_cons, pow_succ]
            nlinarith [Nat.pos_pow_of_pos t.length (show 0 < 256 by norm_num)]

/-- The value of a byte list is below `256 ^ length`. -/
theorem beBytesToNat_lt (l : List Nat) (h : ∀ b ∈ l, b < 256) :
    beBytesToNat l < 256 ^ l.length := by
  simpa using beBytesToNat_foldl_lt l 0 h

/-- Big-endian recomposition with accumulators is injective on byte lists
of equal length. -/
theorem beBytesToNat_foldl_inj :
    ∀ (l1 l2 : List Nat) (a1 a2 : Nat), l1.length = l2.length →
      (∀ b ∈ l1, b < 256) → (∀ b ∈ l2, b < 256) →
      l1.foldl (fun a b => 256 * a + b) a1 = l2.foldl (fun a b => 256 * a + b) a2 →
      a1 = a2 ∧ l1 = l2
  | [], [], a1, a2 => fun _ _ _ h => ⟨h, rfl⟩
  | [], _ :: _, _, _ => fun hlen _ _ _ => by simp at hlen
  | _ :: _, [], _, _ => fun hlen _ _ _ => by simp at hlen
  | b1 :: t1, b2 :: t2, a1, a2 => fun hlen hb1 hb2 h => by
      have ht := beBytesToNat_foldl_inj t1 t2 (256 * a1 + b1) (256 * a2 + b2)
        (by simpa using hlen)
        (fun x hx => hb1 x (List.mem_cons_of_mem _ hx))
        (fun x hx => hb2 x (List.mem_cons_of_mem _ hx)) h
      have hb1lt : b1 < 256 := hb1 b1 (List.mem_cons_self _ _)
      have hb2lt : b2 < 256 := hb2 b2 (List.mem_cons_self _ _)
      have hacc := ht.1
      have heq : a1 = a2 ∧ b1 = b2 := by omega
      exact ⟨heq.1, by rw [heq.2, ht.2]⟩

/-- Equal values mean equal byte lists, for byte lists of equal length. -/
theorem beBytesToNat_inj (l1 l2 : List Nat) (hlen : l1.length = l2.length)
    (h1 : ∀ b ∈ l1, b < 256) (h2 : ∀ b ∈ l2, b < 256)
    (h : beBytesToNat l1 = beBytesToNat l2) : l1 = l2 :=
  (beBytesToNat_foldl_inj l1 l2 0 0 hlen h1 h2 h).2

/-- The head of a byte-string item never shrinks as the length argument
grows. -/
theorem cborHead_two_len_mono (m n : Nat) (h : m ≤ n) :
    (cborHead 2 m).length ≤ (cborHead 2 n).length := by
  simp only [cborHead]
  split_ifs <;> simp [wordBytes, toBytes8] <;> omega

/-- The DAG-CBOR encodings of zero-filled byte strings of distinct lengths
are distinct. -/
theorem cbor_zero_bytes_inj (m n : Nat) (h : m ≠ n) :
    cborHead 2 m ++ List.replicate m 0 ≠ cborHead 2 n ++ List.replicate n 0 := by
  intro heq
  have hlen : (cborHead 2 m).length + m = (cborHead 2 n).length + n := by
    have := congrArg List.length heq
    simpa using this
  rcases Nat.lt_or_ge m n with hmn | hmn
  · have := cborHead_two_len_mono m n (Nat.le_of_lt hmn)
    omega
  · rcases Nat.lt_or_ge n m with hnm | hnm
    · have := cborHead_two_len_mono n m (Nat.le_of_lt hnm)
      omega
    · omega

/-- C7, refuting the converse direction of the claim: two record values
with distinct canonical DAG-CBOR serializations that `generate_cid` maps
to the same CID string. SHA-256 has finitely many digests while the
zero-filled byte-string values have infinitely many distinct
serializations, so two of them must collide; no concrete colliding pair is
known, and the proof is accordingly nonconstructive. -/
theorem C7_cid_collision_exists :
    ∃ v1 v2 : CborVal, dagCborEncode v1 ≠ dagCborEncode v2 ∧
      generate_cid v1 = generate_cid v2 := by
  have hdig : ∀ n : Nat,
      beBytesToNat (sha256 (cborHead 2 n ++ List.replicate n 0)) < 256 ^ 32 := by
    intro n
    have h := beBytesToNat_lt (sha256 (cborHead 2 n ++ List.replicate n 0))
      (sha256_byte_lt _)
    rwa [sha256_length] at h
  obtain ⟨m, n, hmn, hg⟩ := Finite.exists_ne_map_eq_of_infinite
    (fun n : Nat =>
      (⟨beBytesToNat (sha256 (cborHead 2 n ++ List.replicate n 0)), hdig n⟩ :
        Fin (256 ^ 32)))
  have hval : beBytesToNat (sha256 (cborHead 2 m ++ List.replicate m 0))
      = beBytesToNat (sha256 (cborHead 2 n ++ List.replicate n 0)) :=
    congrArg Fin.val hg
  have hsha : sha256 (cborHead 2 m ++ List.replicate m 0)
      = sha256 (cborHead 2 n ++ List.replicate n 0) :=
    beBytesToNat_inj _ _ (by rw [sha256_length, sha256_length])
      (sha256_byte_lt _) (sha256_byte_lt _) hval
  refine ⟨CborVal.bytes (List.replicate m 0), CborVal.bytes (List.replicate n 0), ?_, ?_⟩
  · simp only [dagCborEncode, List.length_replicate, ne_eq, Except.ok.injEq]
    exact cbor_zero_bytes_inj m n hmn
  · simp only [generate_cid, dagCborEncode, List.length_replicate, hsha]


end Nbhd
